import Mathlib

/-!
Verification of the scribble note-taking application core.

Shallow embedding conventions:
* Rust `String` text is modelled as `List Char`; byte offsets coincide with
  character indices (the inputs exercised by the specification are ASCII).
* `Uuid` is modelled as `Nat`.
* `HashMap<Uuid, T>` is modelled as a `List T` whose elements carry their own
  id field; map-key uniqueness is the `Nodup` hypothesis on the id projection.
* Timestamps (`DateTime<Utc>`) are modelled as `Nat`; `Utc::now()` is passed
  in as an explicit `now` argument.
* The external `regex` crate is modelled by an abstract compiler parameter
  `RegexCompiler`: compilation either fails with a message or yields an
  abstract matcher.  The code under verification only ever observes the
  compiler through this interface.
* Rust loops without a structural termination argument are embedded with an
  explicit fuel parameter; exhausted fuel is signalled by `Option.none`,
  which models divergence of the original loop.
-/

namespace Scribble

/-- ASCII lowercasing of one character, modelling `char::to_lowercase` on the
ASCII inputs the claims exercise. -/
def toLowerChar (c : Char) : Char :=
  if 'A' ≤ c ∧ c ≤ 'Z' then Char.ofNat (c.toNat + 32) else c

/-- Model of `str::to_lowercase`. -/
def lowerStr (s : List Char) : List Char := s.map toLowerChar

/-- Model of `str::trim`: drop whitespace from both ends. -/
def trimChars (s : List Char) : List Char :=
  ((s.dropWhile Char.isWhitespace).reverse.dropWhile Char.isWhitespace).reverse

/-- Split a text on newline characters; every occurrence of a newline ends a
piece. -/
def splitNl : List Char → List (List Char)
  | [] => [[]]
  | c :: rest =>
      if c = '\n' then [] :: splitNl rest
      else
        match splitNl rest with
        | p :: ps => (c :: p) :: ps
        | [] => [[c]]

/-- Model of `str::lines`: split on newlines, with no extra empty line after a
trailing newline (so the empty text has no lines at all). -/
def linesOf (content : List Char) : List (List Char) :=
  let ps := splitNl content
  if ps.getLast? = some [] then ps.dropLast else ps

/-- Model of `str::find` for a literal pattern: index of the first occurrence
of `nd` inside `hay`, if any. -/
def findSubstr (hay nd : List Char) : Option Nat :=
  if nd.isPrefixOf hay then some 0
  else
    match hay with
    | [] => none
    | _ :: t => (findSubstr t nd).map (· + 1)

/-- Model of `String::replace_range(pos..pos+len, repl)`. -/
def replaceRange (s : List Char) (pos len : Nat) (repl : List Char) : List Char :=
  s.take pos ++ repl ++ s.drop (pos + len)

/-! ## Data model (`models.rs`) -/

/-- `models::Note`. -/
structure Note where
  id : Nat
  title : List Char
  content : List Char
  folder_id : Option Nat
  created_at : Nat
  modified_at : Nat
  tags : List (List Char)
  file_path : Option (List Char)
deriving DecidableEq, Repr

/-- `models::Folder`. -/
structure Folder where
  id : Nat
  name : List Char
  parent_id : Option Nat
  created_at : Nat
  expanded : Bool
deriving DecidableEq, Repr

/-- `models::NotebookData`: the two id-keyed maps and the ordered root-folder
id sequence. -/
structure NotebookData where
  folders : List Folder
  notes : List Note
  root_folder_ids : List Nat
deriving DecidableEq, Repr

/-- `NotebookData::remove_folder`: refuses to delete a folder that still has
child folders or owned notes; otherwise removes it from the root-id sequence
and from the folder map.  The pair returns the `Result` together with the
notebook after the call (`&mut self` is modelled by state passing). -/
def NotebookData.remove_folder (nb : NotebookData) (folder_id : Nat) :
    Except String Unit × NotebookData :=
  let has_children := nb.folders.any (fun f => f.parent_id == some folder_id)
  if has_children then
    (.error "Cannot delete folder with subfolders", nb)
  else
    let has_notes := nb.notes.any (fun n => n.folder_id == some folder_id)
    if has_notes then
      (.error "Cannot delete folder with notes", nb)
    else
      (.ok (),
        { nb with
          root_folder_ids := nb.root_folder_ids.filter (fun id => id ≠ folder_id)
          folders := nb.folders.filter (fun f => f.id ≠ folder_id) })

/-- `NotebookData::get_folder_notes`. -/
def NotebookData.get_folder_notes (nb : NotebookData) (folder_id : Option Nat) :
    List Note :=
  nb.notes.filter (fun note => note.folder_id == folder_id)

/-! ## Folder tree (`models.rs` / `app.rs`) -/

/-- `models::FolderTreeNode`. -/
inductive FolderTreeNode where
  | mk (folder : Folder) (children : List FolderTreeNode) (notes : List Note)
      (depth : Nat)

/-- The folder of a tree node. -/
def FolderTreeNode.folder : FolderTreeNode → Folder
  | .mk f _ _ _ => f

/-- Child folders of a given folder id: `folders.values().filter(parent_id ==
Some(id))`. -/
def NotebookData.childFoldersOf (nb : NotebookData) (fid : Nat) : List Folder :=
  nb.folders.filter (fun f => f.parent_id == some fid)

/-- `NotebookData::build_tree_node`, with an explicit recursion fuel: the Rust
function recurses through `parent_id` links and terminates only because the
parent graph is kept acyclic; exhausted fuel truncates the children (it is
never reached for acyclic data when the fuel exceeds the folder count). -/
def NotebookData.build_tree_node (nb : NotebookData) :
    Nat → Folder → Nat → FolderTreeNode
  | 0, folder, depth =>
      .mk folder [] (nb.get_folder_notes (some folder.id)) depth
  | fuel + 1, folder, depth =>
      .mk folder
        ((nb.childFoldersOf folder.id).map
          (fun c => nb.build_tree_node fuel c (depth + 1)))
        (nb.get_folder_notes (some folder.id)) depth

/-- `NotebookData::build_folder_tree` with explicit fuel for the recursion. -/
def NotebookData.build_folder_tree_fuel (nb : NotebookData) (fuel : Nat) :
    List FolderTreeNode :=
  nb.root_folder_ids.filterMap
    (fun rid =>
      (nb.folders.find? (fun f => f.id == rid)).map
        (fun f => nb.build_tree_node fuel f 0))

/-- `NotebookData::build_folder_tree`: roots are looked up in the folder map
and expanded recursively.  The canonical fuel `folders.length` is enough for
any acyclic notebook. -/
def NotebookData.build_folder_tree (nb : NotebookData) : List FolderTreeNode :=
  nb.build_folder_tree_fuel nb.folders.length

/-- `app::TreeItemType`. -/
inductive TreeItemType where
  | Folder
  | Note
deriving DecidableEq, Repr

/-- `app::TreeItem`. -/
structure TreeItem where
  id : Nat
  name : List Char
  item_type : TreeItemType
  depth : Nat
  expanded : Bool
deriving DecidableEq, Repr

mutual

/-- `App::add_tree_node_to_items`: emit the folder row, then — only when the
folder is expanded — its note rows followed by the recursively flattened
child folders. -/
def add_tree_node_to_items : FolderTreeNode → List TreeItem
  | .mk folder children notes depth =>
      { id := folder.id, name := folder.name, item_type := .Folder,
        depth := depth, expanded := folder.expanded } ::
      (if folder.expanded then
        notes.map (fun n =>
          { id := n.id, name := n.title, item_type := .Note,
            depth := depth + 1, expanded := false }) ++
        add_forest_to_items children
      else [])

/-- Flattening of a forest, node by node, in order. -/
def add_forest_to_items : List FolderTreeNode → List TreeItem
  | [] => []
  | node :: rest => add_tree_node_to_items node ++ add_forest_to_items rest

end

/-- `App::refresh_tree_view`: root-level unfiled notes first, then the
flattened folder forest. -/
def refresh_tree_view (nb : NotebookData) : List TreeItem :=
  (nb.get_folder_notes none).map (fun n =>
    { id := n.id, name := n.title, item_type := .Note, depth := 0,
      expanded := false }) ++
  add_forest_to_items nb.build_folder_tree

/-! ## Folder moves (`app.rs`) -/

/-- `App::is_folder_ancestor`, with explicit fuel for the walk up the parent
chain (the Rust recursion terminates only on acyclic data; the callers pass
`folders.length + 1`, which is always enough in that case). -/
def is_folder_ancestor (nb : NotebookData) :
    Nat → Nat → Nat → Bool
  | 0, _, _ => false
  | fuel + 1, ancestor_id, descendant_id =>
      if ancestor_id == descendant_id then true
      else
        match nb.folders.find? (fun f => f.id == descendant_id) with
        | some descendant =>
            match descendant.parent_id with
            | some parent_id => is_folder_ancestor nb fuel ancestor_id parent_id
            | none => false
        | none => false

/-- `App::move_folder`: reject a move into a descendant (or into the folder
itself), reject a move to the current location, otherwise update `parent_id`
and the root-id sequence.  Returns the `Result` and the notebook after the
call. -/
def move_folder (nb : NotebookData) (folder_id : Nat)
    (destination_folder_id : Option Nat) : Except String Unit × NotebookData :=
  match destination_folder_id with
  | some dest_id =>
      if is_folder_ancestor nb (nb.folders.length + 1) folder_id dest_id then
        (.error "Cannot move folder into its own subfolder", nb)
      else move_folder_after_check nb folder_id destination_folder_id
  | none => move_folder_after_check nb folder_id destination_folder_id
where
  /-- The part of `move_folder` after the ancestor-cycle check. -/
  move_folder_after_check (nb : NotebookData) (folder_id : Nat)
      (destination_folder_id : Option Nat) :
      Except String Unit × NotebookData :=
    match nb.folders.find? (fun f => f.id == folder_id) with
    | none => (.error "Folder not found", nb)
    | some folder =>
        if folder.parent_id == destination_folder_id then
          (.error "Folder is already in this location", nb)
        else
          let roots₁ :=
            if folder.parent_id = none then
              nb.root_folder_ids.filter (fun id => id ≠ folder_id)
            else nb.root_folder_ids
          let folders₁ :=
            nb.folders.map (fun f =>
              if f.id == folder_id then { f with parent_id := destination_folder_id }
              else f)
          let roots₂ :=
            if destination_folder_id = none then
              if roots₁.contains folder_id then roots₁ else roots₁ ++ [folder_id]
            else roots₁
          (.ok (), { nb with folders := folders₁, root_folder_ids := roots₂ })

/-- One upward step of the folder parent relation: `x`'s folder record lists
`y` as its parent. -/
def PStep (nb : NotebookData) (x y : Nat) : Prop :=
  ∃ f ∈ nb.folders, f.id = x ∧ f.parent_id = some y

/-- The spec's folder invariant: no folder is its own strict ancestor. -/
def Acyclic (nb : NotebookData) : Prop :=
  ∀ x, ¬ Relation.TransGen (PStep nb) x x

/-- The spec's root invariant: every id in the root sequence belongs to a
folder without a parent. -/
def RootsInv (nb : NotebookData) : Prop :=
  ∀ rid ∈ nb.root_folder_ids, ∀ f ∈ nb.folders, f.id = rid → f.parent_id = none

/-! ## Autocomplete engine (`autocomplete.rs`) -/

/-- `autocomplete::AutocompleteSuggestion`; the cursor offset is a signed
integer (negative = back from the end of the insertion). -/
structure AutocompleteSuggestion where
  trigger : List Char
  completion : List Char
  description : List Char
  cursor_offset : Int
deriving DecidableEq, Repr

/-- The suggestion table built by `MarkdownAutocomplete::new`, as an
association list from map key to the suggestion list registered under it (all
17 keys are distinct, so every bucket is a singleton; bucket ties are
impossible in the lookup below, making the map's iteration order
irrelevant). -/
def suggestionTable : List (List Char × List AutocompleteSuggestion) :=
  [ ("# ".data, [⟨"#".data, "# ".data, "Heading 1".data, 0⟩]),
    ("## ".data, [⟨"##".data, "## ".data, "Heading 2".data, 0⟩]),
    ("### ".data, [⟨"###".data, "### ".data, "Heading 3".data, 0⟩]),
    ("- ".data, [⟨"-".data, "- ".data, "Bullet list item".data, 0⟩]),
    ("* ".data, [⟨"*".data, "* ".data, "Bullet list item (alt)".data, 0⟩]),
    ("1. ".data, [⟨"1.".data, "1. ".data, "Numbered list item".data, 0⟩]),
    ("- [ ] ".data,
      [⟨"- [".data, "- [ ] ".data, "Todo checkbox (unchecked)".data, 0⟩]),
    ("- [x] ".data,
      [⟨"- [x".data, "- [x] ".data, "Todo checkbox (checked)".data, 0⟩]),
    ("```".data, [⟨"```".data, "```\n\n```".data, "Code block".data, -4⟩]),
    ("`".data, [⟨"`".data, "``".data, "Inline code".data, -1⟩]),
    ("**".data, [⟨"**".data, "****".data, "Bold text".data, -2⟩]),
    ("*".data, [⟨"*".data, "**".data, "Italic text".data, -1⟩]),
    ("[".data, [⟨"[".data, "[](url)".data, "Link".data, -5⟩]),
    ("![".data,
      [⟨"![".data, "![alt text](image.png)".data, "Image".data, -17⟩]),
    ("> ".data, [⟨">".data, "> ".data, "Blockquote".data, 0⟩]),
    ("| ".data,
      [⟨"|".data,
        "| Header 1 | Header 2 |\n|----------|----------|\n| Cell 1   | Cell 2   |".data,
        "Table".data, -49⟩]),
    ("---".data, [⟨"---".data, "---".data, "Horizontal rule".data, 0⟩]) ]

/-- The best-match fold of `check_for_completions`: among the registered keys
that are a suffix of the text before the cursor, keep the one whose start
offset is smallest (strictly smaller replaces the current best). -/
def bestTriggerMatch (line_up_to_cursor : List Char) :
    List (List Char × List AutocompleteSuggestion) →
    Option (List Char × Nat) → Option (List Char × Nat)
  | [], best => best
  | (key, _) :: rest, best =>
      if key.isSuffixOf line_up_to_cursor then
        let trigger_start := line_up_to_cursor.length - key.length
        match best with
        | some (_, current_start) =>
            if trigger_start < current_start then
              bestTriggerMatch line_up_to_cursor rest (some (key, trigger_start))
            else bestTriggerMatch line_up_to_cursor rest best
        | none => bestTriggerMatch line_up_to_cursor rest (some (key, trigger_start))
      else bestTriggerMatch line_up_to_cursor rest best

/-- `MarkdownAutocomplete::check_for_completions` over the fixed suggestion
table. -/
def check_for_completions (content : List Char) (line col : Nat) :
    Option (List AutocompleteSuggestion × Nat) :=
  let lines := linesOf content
  if h : line < lines.length then
    let current_line := lines.get ⟨line, h⟩
    if col > current_line.length then none
    else
      let line_up_to_cursor := current_line.take col
      let should_trigger :=
        line_up_to_cursor.isEmpty ||
        line_up_to_cursor.all Char.isWhitespace ||
        line_up_to_cursor.getLast? == some ' '
      if !should_trigger then none
      else
        match bestTriggerMatch line_up_to_cursor suggestionTable none with
        | some (key, start_pos) =>
            (match (suggestionTable.find? (fun e => e.1 == key)).map (·.2) with
            | some suggestions => some (suggestions, start_pos)
            | none => none)
        | none => none
  else none

/-! ## Search engine (`search.rs`) -/

/-- `search::SearchQuery`. -/
structure SearchQuery where
  text : List Char
  is_regex : Bool
  folder_id : Option Nat
  case_sensitive : Bool
deriving DecidableEq, Repr

/-- `search::MatchType`. -/
inductive MatchType where
  | Title
  | Content
  | Tag
deriving DecidableEq, Repr

/-- `search::SearchMatch`. -/
structure SearchMatch where
  line_number : Nat
  line_text : List Char
  start_offset : Nat
  end_offset : Nat
  match_type : MatchType
deriving DecidableEq, Repr

/-- `search::SearchResult`. -/
structure SearchResult where
  note : Note
  matches' : List SearchMatch
deriving DecidableEq, Repr

/-- `SearchHistory::add` (front = head of the list): ignore queries that trim
to nothing, drop an existing copy of the text, push to the front, and trim the
back down to `max_size`. -/
def SearchHistory.add (max_size : Nat) (queries : List (List Char))
    (query : List Char) : List (List Char) :=
  if (trimChars query).isEmpty then queries
  else (query :: queries.filter (fun q => q ≠ query)).take max_size

/-- The abstract interface of a compiled `regex::Regex`: the list of match
spans `find_iter` yields on a text, and the result of `replace_all`. -/
structure CompiledRegex where
  findSpans : List Char → List (Nat × Nat)
  replaceAll : List Char → List Char → List Char

/-- The abstract `Regex::new`: either a compile error message or a compiled
regex.  The repository only observes the regex crate through this
interface. -/
def RegexCompiler := List Char → Except String CompiledRegex

/-- The pattern text actually handed to `Regex::new`: the query text itself
when case-sensitive, otherwise prefixed with `(?i)`. -/
def regexPattern (case_sensitive : Bool) (text : List Char) : List Char :=
  if case_sensitive then text else "(?i)".data ++ text

/-- `EnhancedSearch::find_regex_matches`. -/
def find_regex_matches (C : RegexCompiler) (text : List Char)
    (query : SearchQuery) (match_type : MatchType) (line_num : Nat) :
    Except String (Option (List SearchMatch)) :=
  match C (regexPattern query.case_sensitive query.text) with
  | .error e => .error ("Invalid regex: " ++ e)
  | .ok regex =>
      let ms := (regex.findSpans text).map (fun span =>
        { line_number := line_num, line_text := text,
          start_offset := span.1, end_offset := span.2,
          match_type := match_type : SearchMatch })
      if ms.isEmpty then .ok none else .ok (some ms)

/-- The scanning loop of `EnhancedSearch::find_text_matches`, with explicit
fuel (`none` models divergence of the Rust loop, which can only happen for an
empty needle).  Each found occurrence is recorded with the query's length and
the scan resumes at its end offset. -/
def findTextMatchesGo (text qtext : List Char) (case_sensitive : Bool)
    (match_type : MatchType) (line_num : Nat) :
    Nat → Nat → Option (List SearchMatch)
  | 0, _ => none
  | fuel + 1, start_pos =>
      let match_pos :=
        if case_sensitive then findSubstr (text.drop start_pos) qtext
        else findSubstr (lowerStr (text.drop start_pos)) (lowerStr qtext)
      match match_pos with
      | some pos =>
          let absolute_pos := start_pos + pos
          (findTextMatchesGo text qtext case_sensitive match_type line_num fuel
            (absolute_pos + qtext.length)).map
            (fun ms =>
              { line_number := line_num, line_text := text,
                start_offset := absolute_pos,
                end_offset := absolute_pos + qtext.length,
                match_type := match_type : SearchMatch } :: ms)
      | none => some []

/-- `EnhancedSearch::find_text_matches`; the fuel `text.length + 2` is enough
for every non-empty needle. -/
def find_text_matches (text : List Char) (query : SearchQuery)
    (match_type : MatchType) (line_num : Nat) :
    Option (Option (List SearchMatch)) :=
  (findTextMatchesGo text query.text query.case_sensitive match_type line_num
      (text.length + 2) 0).map
    (fun ms => if ms.isEmpty then none else some ms)

/-- `EnhancedSearch::find_matches` (used for title and tag fields).  The outer
`Option` models divergence, the `Except` models the Rust `Result`. -/
def find_matches (C : RegexCompiler) (text : List Char) (query : SearchQuery)
    (match_type : MatchType) :
    Option (Except String (Option (List SearchMatch))) :=
  if query.is_regex then some (find_regex_matches C text query match_type 0)
  else (find_text_matches text query match_type 0).map .ok

/-- `EnhancedSearch::find_matches_in_line`. -/
def find_matches_in_line (C : RegexCompiler) (line : List Char)
    (line_num : Nat) (query : SearchQuery) :
    Option (Except String (Option (List SearchMatch))) :=
  if query.is_regex then
    some (find_regex_matches C line query .Content line_num)
  else (find_text_matches line query .Content line_num).map .ok

/-- The per-line content scan of `EnhancedSearch::search_note`. -/
def searchContentLines (C : RegexCompiler) (query : SearchQuery) :
    List (List Char) → Nat → Option (Except String (List SearchMatch))
  | [], _ => some (.ok [])
  | line :: rest, line_num =>
      match find_matches_in_line C line line_num query with
      | none => none
      | some (.error e) => some (.error e)
      | some (.ok r?) =>
          (searchContentLines C query rest (line_num + 1)).map
            (fun res => res.map (fun ms => r?.getD [] ++ ms))

/-- The per-tag scan of `EnhancedSearch::search_note`. -/
def searchTags (C : RegexCompiler) (query : SearchQuery) :
    List (List Char) → Option (Except String (List SearchMatch))
  | [] => some (.ok [])
  | tag :: rest =>
      match find_matches C tag query .Tag with
      | none => none
      | some (.error e) => some (.error e)
      | some (.ok r?) =>
          (searchTags C query rest).map
            (fun res => res.map (fun ms => r?.getD [] ++ ms))

/-- `EnhancedSearch::search_note`: collect title, per-line content and tag
matches; a note with no match at all yields `none`. -/
def search_note (C : RegexCompiler) (note : Note) (query : SearchQuery) :
    Option (Except String (Option SearchResult)) :=
  match find_matches C note.title query .Title with
  | none => none
  | some (.error e) => some (.error e)
  | some (.ok title?) =>
      match searchContentLines C query (linesOf note.content) 0 with
      | none => none
      | some (.error e) => some (.error e)
      | some (.ok contentMs) =>
          match searchTags C query note.tags with
          | none => none
          | some (.error e) => some (.error e)
          | some (.ok tagMs) =>
              let ms := title?.getD [] ++ contentMs ++ tagMs
              if ms.isEmpty then some (.ok none)
              else some (.ok (some { note := note, matches' := ms }))

/-- The accumulation loop of `EnhancedSearch::search` over the candidate
notes. -/
def searchGo (C : RegexCompiler) (query : SearchQuery) :
    List Note → Option (Except String (List SearchResult))
  | [] => some (.ok [])
  | note :: rest =>
      match search_note C note query with
      | none => none
      | some (.error e) => some (.error e)
      | some (.ok r?) =>
          (searchGo C query rest).map
            (fun res => res.map (fun results =>
              match r? with
              | some r => r :: results
              | none => results))

/-- Count of Title-type matches of a result. -/
def titleMatchCount (r : SearchResult) : Nat :=
  (r.matches'.filter (fun m => m.match_type == .Title)).length

/-- `usize::cmp`. -/
def natCmp (a b : Nat) : Ordering :=
  if a < b then .lt else if a = b then .eq else .gt

/-- Byte-wise lexicographic comparison, modelling `str::cmp`. -/
def cmpStr : List Char → List Char → Ordering
  | [], [] => .eq
  | [], _ :: _ => .lt
  | _ :: _, [] => .gt
  | a :: as', b :: bs' =>
      (natCmp a.toNat b.toNat).then (cmpStr as' bs')

/-- The comparator of `EnhancedSearch::search`: descending Title-match count,
then descending total match count, then ascending note title. -/
def cmpResult (a b : SearchResult) : Ordering :=
  (natCmp (titleMatchCount b) (titleMatchCount a)).then
    ((natCmp b.matches'.length a.matches'.length).then
      (cmpStr a.note.title b.note.title))

/-- `Vec::sort_by` with the result comparator: a stable sort into
non-descending comparator order (modelled by `List.mergeSort`, which is
stable, hence agrees with the Rust stable sort). -/
def sortResults (results : List SearchResult) : List SearchResult :=
  results.mergeSort (fun a b => cmpResult a b ≠ .gt)

/-- `EnhancedSearch::search`: record the query in the history, select the
candidate notes by folder scope, scan them, and sort the results.  Returns
the history after the call together with the search outcome. -/
def EnhancedSearch.search (C : RegexCompiler) (history : List (List Char))
    (nb : NotebookData) (query : SearchQuery) :
    List (List Char) × Option (Except String (List SearchResult)) :=
  let history₁ :=
    if (trimChars query.text).isEmpty then history
    else SearchHistory.add 50 history query.text
  let notes_to_search :=
    match query.folder_id with
    | some folder_id => nb.notes.filter (fun n => n.folder_id == some folder_id)
    | none => nb.notes
  match searchGo C query notes_to_search with
  | none => (history₁, none)
  | some (.error e) => (history₁, some (.error e))
  | some (.ok results) => (history₁, some (.ok (sortResults results)))

/-! ## Find and replace (`search.rs`) -/

/-- The case-sensitive literal replacement loop of
`EnhancedSearch::replace_in_text`: replace the first occurrence and rescan the
whole text from the beginning.  `none` models divergence of the Rust `while`
loop (which really can diverge, e.g. when the replacement contains the find
text). -/
def replaceCSLoop (find repl : List Char) :
    Nat → List Char → Nat → Option (List Char × Nat)
  | 0, _, _ => none
  | fuel + 1, result, count =>
      match findSubstr result find with
      | some pos =>
          replaceCSLoop find repl fuel
            (replaceRange result pos find.length repl) (count + 1)
      | none => some (result, count)

/-- The case-insensitive literal replacement loop of
`EnhancedSearch::replace_in_text`: scan the lowercased suffix, replace, and
resume after the inserted replacement. -/
def replaceCILoop (find repl : List Char) :
    Nat → List Char → Nat → Nat → Option (List Char × Nat)
  | 0, _, _, _ => none
  | fuel + 1, result, count, start =>
      match findSubstr (lowerStr (result.drop start)) (lowerStr find) with
      | some pos =>
          let absolute_pos := start + pos
          replaceCILoop find repl fuel
            (replaceRange result absolute_pos find.length repl) (count + 1)
            (absolute_pos + repl.length)
      | none => some (result, count)

/-- `EnhancedSearch::replace_in_text`, with fuel for the literal loops (the
regex path delegates to the abstract compiled regex). -/
def replace_in_text (C : RegexCompiler) (fuel : Nat) (text find repl : List Char)
    (is_regex case_sensitive : Bool) :
    Option (Except String (List Char × Nat)) :=
  if is_regex then
    match C (regexPattern case_sensitive find) with
    | .error e => some (.error ("Invalid regex: " ++ e))
    | .ok regex =>
        some (.ok (regex.replaceAll text repl, (regex.findSpans text).length))
  else if case_sensitive then
    (replaceCSLoop find repl fuel text 0).map .ok
  else
    (replaceCILoop find repl fuel text 0 0).map .ok

/-- `EnhancedSearch::replace_in_note`: replace independently in the title and
the content, sum the counts, and bump `modified_at` (to the ambient `now`)
exactly when something was replaced.  Tags are not touched. -/
def replace_in_note (C : RegexCompiler) (fuel now : Nat) (note : Note)
    (find repl : List Char) (is_regex case_sensitive : Bool) :
    Option (Except String (Nat × Note)) :=
  match replace_in_text C fuel note.title find repl is_regex case_sensitive with
  | none => none
  | some (.error e) => some (.error e)
  | some (.ok (title₁, titleCount)) =>
      match replace_in_text C fuel note.content find repl is_regex
          case_sensitive with
      | none => none
      | some (.error e) => some (.error e)
      | some (.ok (content₁, contentCount)) =>
          let replacements := titleCount + contentCount
          some (.ok (replacements,
            { note with
              title := title₁
              content := content₁
              modified_at :=
                if replacements > 0 then now else note.modified_at }))

/-! ## Basic lemmas -/

theorem findSubstr_cons_self (t : List Char) (c : Char) (nd : List Char)
    (h : nd = [c]) : findSubstr (c :: t) nd = some 0 := by
  subst h
  have : List.isPrefixOf [c] (c :: t) = true := by
    simp [List.isPrefixOf]
  simp [findSubstr, this]

theorem replaceCSLoop_a_aa (n : Nat) :
    ∀ t count, replaceCSLoop ['a'] ['a', 'a'] n ('a' :: t) count = none := by
  induction n with
  | zero => intro t count; rfl
  | succ n ih =>
      intro t count
      have hfind := findSubstr_cons_self t 'a' ['a'] rfl
      have hrange :
          replaceRange ('a' :: t) 0 (['a'] : List Char).length ['a', 'a'] =
            'a' :: 'a' :: t := by
        simp [replaceRange]
      simp only [replaceCSLoop, hfind, hrange]
      exact ih ('a' :: t) (count + 1)

/-! ## Claim theorems -/

/-- A sample note with title `"a"`, used to exhibit the non-terminating
replacement. -/
def loopNote : Note :=
  { id := 1, title := ['a'], content := [], folder_id := none,
    created_at := 0, modified_at := 0, tags := [], file_path := none }

/-- C10: on the concrete failing input — find text `"a"`, replacement `"aa"`,
literal mode, case-sensitive — `replace_in_note` never returns, for any
amount of fuel: the case-sensitive literal loop rescans from the start of the
text, the replacement reintroduces the find text, and the loop runs forever
(the embedding returns `none` for every fuel, i.e. the Rust loop diverges). -/
theorem replace_in_note_diverges_on_growing_replacement
    (C : RegexCompiler) (fuel now : Nat) :
    replace_in_note C fuel now loopNote ['a'] ['a', 'a'] false true = none := by
  have hloop : replaceCSLoop ['a'] ['a', 'a'] fuel loopNote.title 0 = none := by
    have : loopNote.title = 'a' :: [] := rfl
    rw [this]
    exact replaceCSLoop_a_aa fuel [] 0
  simp [replace_in_note, replace_in_text, hloop]

/-- C3: `remove_folder` on a folder id that still has at least one child
folder or at least one owned note fails with an error and leaves the notebook
(folders, notes and root-id sequence) exactly as it was: the guards run
before any mutation and the function returns early. -/
theorem remove_folder_nonempty_fails (nb : NotebookData) (fid : Nat)
    (h : (∃ f ∈ nb.folders, f.parent_id = some fid) ∨
         (∃ n ∈ nb.notes, n.folder_id = some fid)) :
    ∃ e, nb.remove_folder fid = (.error e, nb) := by
  rcases h with ⟨f, hf, hp⟩ | ⟨n, hn, hp⟩
  · have hchild : nb.folders.any (fun f => f.parent_id == some fid) = true := by
      simp only [List.any_eq_true]
      exact ⟨f, hf, by simp [hp]⟩
    exact ⟨"Cannot delete folder with subfolders",
      by simp [NotebookData.remove_folder, hchild]⟩
  · by_cases hchild : nb.folders.any (fun f => f.parent_id == some fid) = true
    · exact ⟨"Cannot delete folder with subfolders",
        by simp [NotebookData.remove_folder, hchild]⟩
    · have hnotes : nb.notes.any (fun n => n.folder_id == some fid) = true := by
        simp only [List.any_eq_true]
        exact ⟨n, hn, by simp [hp]⟩
      refine ⟨"Cannot delete folder with notes", ?_⟩
      simp only [NotebookData.remove_folder, hnotes]
      simp [hchild]

/-- A sample notebook: folder 2 is a child of folder 1, note 10 lives in
folder 3. -/
def sampleNotebook : NotebookData :=
  { folders :=
      [ { id := 1, name := ['A'], parent_id := none, created_at := 0,
          expanded := true },
        { id := 2, name := ['B'], parent_id := some 1, created_at := 0,
          expanded := true },
        { id := 3, name := ['C'], parent_id := none, created_at := 0,
          expanded := true } ],
    notes :=
      [ { id := 10, title := ['n'], content := [], folder_id := some 3,
          created_at := 0, modified_at := 0, tags := [], file_path := none } ],
    root_folder_ids := [1, 3] }

/-- C3 witness: deleting folder 1 (which has child folder 2) and folder 3
(which owns note 10) both fail and leave the sample notebook unchanged. -/
theorem remove_folder_nonempty_fails_witness :
    (∃ e, sampleNotebook.remove_folder 1 = (.error e, sampleNotebook)) ∧
    (∃ e, sampleNotebook.remove_folder 3 = (.error e, sampleNotebook)) :=
  ⟨remove_folder_nonempty_fails sampleNotebook 1
      (.inl ⟨{ id := 2, name := ['B'], parent_id := some 1, created_at := 0,
               expanded := true }, by decide, rfl⟩),
    remove_folder_nonempty_fails sampleNotebook 3
      (.inr ⟨{ id := 10, title := ['n'], content := [], folder_id := some 3,
               created_at := 0, modified_at := 0, tags := [],
               file_path := none }, by decide, rfl⟩)⟩

/-- C1 counterexample: for content `"- ["` with the cursor at line 0,
column 3, `check_for_completions` returns `none` — not the checkbox
suggestion set the claim promises — because `"- ["` is neither empty, nor all
whitespace, nor ends in a space, so the token-boundary gate rejects it before
any trigger is matched. -/
theorem check_for_completions_dash_bracket_none :
    check_for_completions "- [".data 0 3 = none := by decide

/-- C1 (amended): the token-boundary gate makes `check_for_completions`
return `none` both for `"- ["` at column 3 and for `"x#"` at column 2; the
checkbox suggestion set (with trigger start offset 0) is produced only once
the full registered key `"- [ ] "` has been typed. -/
theorem check_for_completions_boundary_gate :
    check_for_completions "- [".data 0 3 = none ∧
    check_for_completions "x#".data 0 2 = none ∧
    check_for_completions "- [ ] ".data 0 6 =
      some ([⟨"- [".data, "- [ ] ".data, "Todo checkbox (unchecked)".data, 0⟩],
        0) := by
  refine ⟨by decide, by decide, by decide⟩

/-! ## Search history (C9) -/

/-- The history produced by a sequence of searches, starting from the empty
history `EnhancedSearch::new` creates (capacity 50). -/
def searchHistoryRun (qs : List (List Char)) : List (List Char) :=
  qs.foldl (SearchHistory.add 50) []

theorem SearchHistory.add_inv (max_size : Nat) (h : List (List Char))
    (q : List Char)
    (hinv : h.length ≤ max_size ∧ h.Nodup ∧
      ∀ x ∈ h, (trimChars x).isEmpty = false) :
    (SearchHistory.add max_size h q).length ≤ max_size ∧
      (SearchHistory.add max_size h q).Nodup ∧
      ∀ x ∈ SearchHistory.add max_size h q, (trimChars x).isEmpty = false := by
  unfold SearchHistory.add
  by_cases hq : (trimChars q).isEmpty
  · simpa [hq] using hinv
  · simp only [hq, if_neg, Bool.false_eq_true, not_false_eq_true]
    refine ⟨List.length_take_le _ _, ?_, ?_⟩
    · apply List.Nodup.sublist (List.take_sublist _ _)
      refine List.Nodup.cons ?_ (hinv.2.1.filter _)
      intro hmem
      have := List.of_mem_filter hmem
      simp at this
    · intro x hx
      rcases List.mem_cons.mp (List.take_subset _ _ hx) with rfl | hx'
      · simpa using hq
      · exact hinv.2.2 x (List.mem_of_mem_filter hx')

theorem searchHistoryRun_inv (qs : List (List Char)) :
    (searchHistoryRun qs).length ≤ 50 ∧ (searchHistoryRun qs).Nodup ∧
      ∀ x ∈ searchHistoryRun qs, (trimChars x).isEmpty = false := by
  suffices H : ∀ (h₀ : List (List Char)),
      h₀.length ≤ 50 ∧ h₀.Nodup ∧ (∀ x ∈ h₀, (trimChars x).isEmpty = false) →
      (qs.foldl (SearchHistory.add 50) h₀).length ≤ 50 ∧
        (qs.foldl (SearchHistory.add 50) h₀).Nodup ∧
        ∀ x ∈ qs.foldl (SearchHistory.add 50) h₀,
          (trimChars x).isEmpty = false by
    exact H [] ⟨by simp, List.nodup_nil, by simp⟩
  induction qs with
  | nil => intro h₀ hinv; simpa using hinv
  | cons q rest ih =>
      intro h₀ hinv
      exact ih _ (SearchHistory.add_inv 50 h₀ q hinv)

theorem SearchHistory.add_skips_blank (max_size : Nat)
    (h : List (List Char)) (q : List Char)
    (hq : (trimChars q).isEmpty = true) :
    SearchHistory.add max_size h q = h := by
  simp [SearchHistory.add, hq]

theorem foldl_add_blank (h : List (List Char)) (l : List (List Char))
    (hl : ∀ x ∈ l, (trimChars x).isEmpty = true) :
    l.foldl (SearchHistory.add 50) h = h := by
  induction l generalizing h with
  | nil => rfl
  | cons x rest ih =>
      simp only [List.foldl_cons]
      rw [SearchHistory.add_skips_blank 50 h x (hl x (by simp))]
      exact ih h (fun y hy => hl y (by simp [hy]))

theorem SearchHistory.add_head (max_size : Nat) (h : List (List Char))
    (q : List Char) (hq : (trimChars q).isEmpty = false) :
    (SearchHistory.add (max_size + 1) h q).head? = some q := by
  simp [SearchHistory.add, hq, List.take_cons]

theorem searchHistoryRun_head (qs : List (List Char)) (q : List Char)
    (hlast : (qs.filter (fun x => !(trimChars x).isEmpty)).getLast? = some q) :
    (searchHistoryRun qs).head? = some q := by
  have H : ∀ (l : List (List Char)) (p : List Char),
      (l.filter (fun x => !(trimChars x).isEmpty)).getLast? = some p →
      ∀ (h₀ : List (List Char)),
        (l.foldl (SearchHistory.add 50) h₀).head? = some p := by
    intro l
    induction l with
    | nil => intro p hp; simp at hp
    | cons x rest ih =>
        intro p hp h₀
        by_cases hrest : rest.filter (fun x => !(trimChars x).isEmpty) = []
        · have hblank : ∀ y ∈ rest, (trimChars y).isEmpty = true := by
            intro y hy
            have := List.filter_eq_nil_iff.mp hrest y hy
            simpa using this
          have hx : (trimChars x).isEmpty = false := by
            by_contra hxe
            have hxe' : (trimChars x).isEmpty = true := by
              revert hxe; cases (trimChars x).isEmpty <;> simp
            simp [List.filter_cons, hxe', hrest] at hp
          have hfilter :
              (x :: rest).filter (fun x => !(trimChars x).isEmpty) = [x] := by
            simp [List.filter_cons, hx, hrest]
          rw [hfilter] at hp
          simp only [List.getLast?_singleton, Option.some_inj] at hp
          subst hp
          simp only [List.foldl_cons]
          rw [foldl_add_blank _ rest hblank]
          exact SearchHistory.add_head 49 h₀ x hx
        · have hp' :
              (rest.filter (fun x => !(trimChars x).isEmpty)).getLast? =
                some p := by
            rcases List.exists_cons_of_ne_nil hrest with ⟨y, ys, hys⟩
            rw [List.filter_cons] at hp
            by_cases hx : !(trimChars x).isEmpty
            · rw [if_pos hx, hys] at hp
              rw [List.getLast?_cons_cons] at hp
              rw [hys]
              exact hp
            · rwa [if_neg hx] at hp
          simp only [List.foldl_cons]
          exact ih p hp' _
  exact H qs q hlast []

theorem SearchHistory.add_evicts (h : List (List Char)) (q : List Char)
    (hlen : h.length = 50) (hmem : q ∉ h)
    (hq : (trimChars q).isEmpty = false) :
    SearchHistory.add 50 h q = q :: h.dropLast := by
  have hfilter : h.filter (fun x => x ≠ q) = h :=
    List.filter_eq_self.mpr (fun x hx => by
      simp only [ne_eq, decide_eq_true_eq]
      exact fun hxq => hmem (hxq ▸ hx))
  have htake : h.take 49 = h.dropLast := by
    rw [List.dropLast_eq_take, hlen]
  simp only [SearchHistory.add, hq, Bool.false_eq_true, if_neg,
    not_false_eq_true, hfilter, List.take_succ_cons, htake]

/-- C9: after any sequence of searches starting from a fresh history, the
history has at most 50 entries, no duplicate texts, only texts that do not
trim to nothing, and the most recent non-blank query text at the front; a
full history evicts its oldest (back) entry on a new insertion; and every
`EnhancedSearch::search` call updates the history exactly through
`SearchHistory::add` on the query text (blank texts are never recorded). -/
theorem search_history_bounded (qs : List (List Char)) :
    (searchHistoryRun qs).length ≤ 50 ∧
    (searchHistoryRun qs).Nodup ∧
    (∀ x ∈ searchHistoryRun qs, (trimChars x).isEmpty = false) ∧
    (∀ q, (qs.filter (fun x => !(trimChars x).isEmpty)).getLast? = some q →
      (searchHistoryRun qs).head? = some q) ∧
    (∀ (h : List (List Char)) (q : List Char), h.length = 50 → q ∉ h →
      (trimChars q).isEmpty = false →
      SearchHistory.add 50 h q = q :: h.dropLast) ∧
    (∀ (C : RegexCompiler) (h : List (List Char)) (nb : NotebookData)
      (query : SearchQuery),
      (EnhancedSearch.search C h nb query).1 = SearchHistory.add 50 h query.text) := by
  refine ⟨(searchHistoryRun_inv qs).1, (searchHistoryRun_inv qs).2.1,
    (searchHistoryRun_inv qs).2.2, fun q h => searchHistoryRun_head qs q h,
    fun h q h1 h2 h3 => SearchHistory.add_evicts h q h1 h2 h3, ?_⟩
  intro C h nb query
  unfold EnhancedSearch.search
  by_cases hq : (trimChars query.text).isEmpty
  · rw [SearchHistory.add_skips_blank 50 h query.text hq]
    simp only [hq, if_pos]
    cases searchGo C query
        (match query.folder_id with
          | some folder_id =>
              nb.notes.filter (fun n => n.folder_id == some folder_id)
          | none => nb.notes) with
    | none => rfl
    | some r => cases r <;> rfl
  · simp only [hq, Bool.false_eq_true, if_neg, not_false_eq_true]
    cases searchGo C query
        (match query.folder_id with
          | some folder_id =>
              nb.notes.filter (fun n => n.folder_id == some folder_id)
          | none => nb.notes) with
    | none => rfl
    | some r => cases r <;> rfl

/-- A sample sequence of query texts (the second is blank). -/
def histQueries : List (List Char) := [['a'], [' '], ['b'], ['a']]

/-- A full (50-entry) history. -/
def fullHistory : List (List Char) :=
  (List.range 50).map (fun i => [Char.ofNat (100 + i)])

/-- C9 witness: on the concrete query sequence `["a", " ", "b", "a"]` the
history respects the cap and has the latest non-blank text `"a"` in front,
and inserting a fresh text into a full 50-entry history evicts the back
entry. -/
theorem search_history_bounded_witness :
    (searchHistoryRun histQueries).length ≤ 50 ∧
    (searchHistoryRun histQueries).head? = some ['a'] ∧
    SearchHistory.add 50 fullHistory ['c'] = ['c'] :: fullHistory.dropLast :=
  ⟨(search_history_bounded histQueries).1,
    (search_history_bounded histQueries).2.2.2.1 ['a'] (by decide),
    (search_history_bounded histQueries).2.2.2.2.1 fullHistory ['c']
      (by decide) (by decide) (by decide)⟩

/-! ## Find/replace frame effects (C8) -/

/-- C8: whenever `replace_in_note` returns, the replacement was applied to
the title and to the content independently (through `replace_in_text`), the
returned count is the sum of the two counts, `modified_at` is set to the
fresh timestamp exactly when at least one replacement occurred (and is
untouched when the count is 0), and the tags — as well as every other field
of the note — are never modified. -/
theorem replace_in_note_frame (C : RegexCompiler) (fuel now : Nat)
    (note : Note) (find repl : List Char) (is_regex case_sensitive : Bool)
    (count : Nat) (note₁ : Note)
    (h : replace_in_note C fuel now note find repl is_regex case_sensitive =
      some (.ok (count, note₁))) :
    note₁.tags = note.tags ∧ note₁.id = note.id ∧
    note₁.folder_id = note.folder_id ∧ note₁.created_at = note.created_at ∧
    note₁.file_path = note.file_path ∧
    (∃ title₁ titleCount content₁ contentCount,
      replace_in_text C fuel note.title find repl is_regex case_sensitive =
        some (.ok (title₁, titleCount)) ∧
      replace_in_text C fuel note.content find repl is_regex case_sensitive =
        some (.ok (content₁, contentCount)) ∧
      count = titleCount + contentCount ∧
      note₁.title = title₁ ∧ note₁.content = content₁) ∧
    note₁.modified_at = (if 0 < count then now else note.modified_at) := by
  revert h
  unfold replace_in_note
  cases ht : replace_in_text C fuel note.title find repl is_regex
      case_sensitive with
  | none => intro h; exact absurd h (by simp)
  | some rt =>
      cases rt with
      | error e => intro h; exact absurd h (by simp)
      | ok pt =>
          obtain ⟨title₁, titleCount⟩ := pt
          cases hc : replace_in_text C fuel note.content find repl is_regex
              case_sensitive with
          | none => intro h; exact absurd h (by simp)
          | some rc =>
              cases rc with
              | error e => intro h; exact absurd h (by simp)
              | ok pc =>
                  obtain ⟨content₁, contentCount⟩ := pc
                  intro h
                  simp only [Option.some_inj, Except.ok.injEq, Prod.mk.injEq] at h
                  obtain ⟨hcount, hnote⟩ := h
                  subst hcount
                  refine ⟨by rw [← hnote], by rw [← hnote], by rw [← hnote],
                    by rw [← hnote], by rw [← hnote],
                    ⟨title₁, titleCount, content₁, contentCount, rfl, rfl, rfl,
                      by rw [← hnote], by rw [← hnote]⟩, ?_⟩
                  rw [← hnote]

/-- A regex compiler that rejects every pattern (used where compilation is
expected to fail, and as an inert argument on non-regex paths). -/
def failCompiler : RegexCompiler := fun _ => .error "x"

/-- A sample note for the replacement witness. -/
def sampleReplaceNote : Note :=
  { id := 5, title := "ab".data, content := "ca".data, folder_id := none,
    created_at := 0, modified_at := 3, tags := [['t']], file_path := none }

/-- The note produced by replacing `"a"` with `"b"` in the sample note at
timestamp 7. -/
def sampleReplacedNote : Note :=
  { id := 5, title := "bb".data, content := "cb".data, folder_id := none,
    created_at := 0, modified_at := 7, tags := [['t']], file_path := none }

/-- C8 witness: the concrete case-sensitive literal replacement of `"a"` by
`"b"` (count 2) keeps the tags and bumps `modified_at` to the fresh
timestamp. -/
theorem replace_in_note_frame_witness :
    sampleReplacedNote.tags = sampleReplaceNote.tags ∧
    sampleReplacedNote.modified_at =
      (if 0 < 2 then 7 else sampleReplaceNote.modified_at) := by
  have h : replace_in_note failCompiler 5 7 sampleReplaceNote ['a'] ['b']
      false true = some (.ok (2, sampleReplacedNote)) := rfl
  obtain ⟨htags, -, -, -, -, -, hmod⟩ :=
    replace_in_note_frame failCompiler 5 7 sampleReplaceNote ['a'] ['b']
      false true 2 sampleReplacedNote h
  exact ⟨htags, hmod⟩

/-! ## Regex compile failure (C6) -/

/-- The empty notebook. -/
def emptyNotebook : NotebookData := { folders := [], notes := [], root_folder_ids := [] }

/-- C6 counterexample: with an empty notebook — hence an empty candidate
scope — `search` never attempts to compile the (invalid) regex pattern and
returns `Ok` with an empty result list instead of the error the claim
demands: the compile only happens inside the per-note scan. -/
theorem search_invalid_regex_empty_scope_ok :
    (EnhancedSearch.search failCompiler [] emptyNotebook
      { text := ['('], is_regex := true, folder_id := none,
        case_sensitive := false }).2 = some (.ok []) := by
  have h0 : searchGo failCompiler
      { text := ['('], is_regex := true, folder_id := none,
        case_sensitive := false } emptyNotebook.notes = some (.ok []) := rfl
  simp [EnhancedSearch.search, emptyNotebook, sortResults] at h0 ⊢
  simp [h0]

/-- C6 (amended): for every query with `is_regex` set whose pattern fails to
compile, `search` returns the compile error and produces no result list,
provided at least one note is in the searched scope (with an empty scope the
pattern is never compiled and `Ok []` is returned). -/
theorem search_invalid_regex_errors (C : RegexCompiler)
    (h : List (List Char)) (nb : NotebookData) (query : SearchQuery)
    (e : String) (hre : query.is_regex = true)
    (hcomp : C (regexPattern query.case_sensitive query.text) = .error e)
    (hscope : match query.folder_id with
      | some fid => ∃ n ∈ nb.notes, n.folder_id = some fid
      | none => nb.notes ≠ []) :
    (EnhancedSearch.search C h nb query).2 =
      some (.error ("Invalid regex: " ++ e)) := by
  have hnote_err : ∀ note, search_note C note query =
      some (.error ("Invalid regex: " ++ e)) := by
    intro note
    unfold search_note find_matches find_regex_matches
    simp [hre, hcomp]
  have hgo : ∀ ns, ns ≠ [] →
      searchGo C query ns = some (.error ("Invalid regex: " ++ e)) := by
    intro ns hns
    cases ns with
    | nil => exact absurd rfl hns
    | cons n rest => simp [searchGo, hnote_err n]
  cases hq : query.folder_id with
  | none =>
      have hne : nb.notes ≠ [] := by rw [hq] at hscope; exact hscope
      simp only [EnhancedSearch.search, hq]
      rw [hgo nb.notes hne]
  | some fid =>
      have hne : nb.notes.filter (fun n => n.folder_id == some fid) ≠ [] := by
        rw [hq] at hscope
        obtain ⟨n, hn, hfid⟩ := hscope
        exact List.ne_nil_of_mem (List.mem_filter.mpr ⟨hn, by simp [hfid]⟩)
      simp only [EnhancedSearch.search, hq]
      rw [hgo _ hne]

/-- C6 witness: on a one-note notebook, the invalid regex query surfaces as
the compile error. -/
theorem search_invalid_regex_errors_witness :
    (EnhancedSearch.search failCompiler [] sampleNotebook
      { text := ['('], is_regex := true, folder_id := none,
        case_sensitive := false }).2 = some (.error "Invalid regex: x") :=
  search_invalid_regex_errors failCompiler [] sampleNotebook
    { text := ['('], is_regex := true, folder_id := none,
      case_sensitive := false } "x" rfl rfl (by decide)

/-! ## Literal matching (C5) -/

/-- An occurrence of the needle at position `p` of the haystack, in the
comparison mode of the query: verbatim when case-sensitive, after lowercasing
both sides otherwise. -/
def occursAt (case_sensitive : Bool) (text qtext : List Char) (p : Nat) :
    Prop :=
  if case_sensitive then qtext <+: text.drop p
  else lowerStr qtext <+: (lowerStr text).drop p

theorem findSubstr_some (hay nd : List Char) (p : Nat)
    (h : findSubstr hay nd = some p) :
    nd <+: hay.drop p ∧ ∀ q < p, ¬ nd <+: hay.drop q := by
  induction hay generalizing p with
  | nil =>
      unfold findSubstr at h
      by_cases hpre : nd.isPrefixOf ([] : List Char)
      · simp only [hpre, if_pos, Option.some_inj] at h
        subst h
        exact ⟨List.isPrefixOf_iff_prefix.mp hpre, fun q hq => absurd hq (by omega)⟩
      · simp [hpre] at h
  | cons c t ih =>
      unfold findSubstr at h
      by_cases hpre : nd.isPrefixOf (c :: t)
      · simp only [hpre, if_pos, Option.some_inj] at h
        subst h
        exact ⟨List.isPrefixOf_iff_prefix.mp hpre,
          fun q hq => absurd hq (by omega)⟩
      · simp only [hpre, Bool.false_eq_true, if_neg, not_false_eq_true,
          Option.map_eq_some'] at h
        obtain ⟨p', hp', rfl⟩ := h
        obtain ⟨hpref, hmin⟩ := ih p' hp'
        refine ⟨by simpa using hpref, ?_⟩
        intro q hq
        cases q with
        | zero =>
            simpa using fun hc => hpre (List.isPrefixOf_iff_prefix.mpr hc)
        | succ q' =>
            have := hmin q' (by omega)
            simpa using this

theorem findSubstr_none (hay nd : List Char)
    (h : findSubstr hay nd = none) : ∀ q, ¬ nd <+: hay.drop q := by
  induction hay with
  | nil =>
      intro q hq
      unfold findSubstr at h
      by_cases hpre : nd.isPrefixOf ([] : List Char)
      · simp [hpre] at h
      · rw [List.drop_nil] at hq
        exact hpre (List.isPrefixOf_iff_prefix.mpr
          (by simpa using hq))
  | cons c t ih =>
      intro q hq
      unfold findSubstr at h
      by_cases hpre : nd.isPrefixOf (c :: t)
      · simp [hpre] at h
      · simp only [hpre, Bool.false_eq_true, if_neg, not_false_eq_true,
          Option.map_eq_none'] at h
        cases q with
        | zero => exact hpre (List.isPrefixOf_iff_prefix.mpr (by simpa using hq))
        | succ q' => exact ih h q' (by simpa using hq)

theorem findSubstr_some_bound (hay nd : List Char) (p : Nat)
    (hnd : nd ≠ []) (h : findSubstr hay nd = some p) :
    p + nd.length ≤ hay.length := by
  obtain ⟨hpref, -⟩ := findSubstr_some hay nd p h
  have hlen : nd.length ≤ (hay.drop p).length := hpref.length_le
  have hne : hay.drop p ≠ [] := by
    intro hnil
    rw [hnil] at hpref
    exact hnd (List.prefix_nil.mp hpref)
  have hplt : p < hay.length := by
    by_contra hge
    exact hne (List.drop_eq_nil_iff.mpr (by omega))
  simp only [List.length_drop] at hlen
  omega

/-- The mode-independent haystack: the text itself when case-sensitive, its
lowercasing otherwise. -/
def matchTarget (case_sensitive : Bool) (text : List Char) : List Char :=
  if case_sensitive then text else lowerStr text

/-- The mode-independent needle. -/
def matchPat (case_sensitive : Bool) (qtext : List Char) : List Char :=
  if case_sensitive then qtext else lowerStr qtext

theorem matchPos_eq (text qtext : List Char) (cs : Bool) (s : Nat) :
    (if cs then findSubstr (text.drop s) qtext
     else findSubstr (lowerStr (text.drop s)) (lowerStr qtext)) =
    findSubstr ((matchTarget cs text).drop s) (matchPat cs qtext) := by
  cases cs <;> simp [matchTarget, matchPat, lowerStr]

theorem occursAt_iff (cs : Bool) (text qtext : List Char) (p : Nat) :
    occursAt cs text qtext p ↔
      matchPat cs qtext <+: (matchTarget cs text).drop p := by
  cases cs <;> simp [occursAt, matchTarget, matchPat]

theorem length_matchTarget (cs : Bool) (text : List Char) :
    (matchTarget cs text).length = text.length := by
  cases cs <;> simp [matchTarget, lowerStr]

theorem length_matchPat (cs : Bool) (qtext : List Char) :
    (matchPat cs qtext).length = qtext.length := by
  cases cs <;> simp [matchPat, lowerStr]

theorem matchPat_ne_nil (cs : Bool) (qtext : List Char) (hq : qtext ≠ []) :
    matchPat cs qtext ≠ [] := by
  cases cs <;> simp [matchPat, lowerStr, hq]

theorem findTextMatchesGo_spec (text qtext : List Char) (cs : Bool)
    (mt : MatchType) (ln : Nat) :
    ∀ (fuel s : Nat) (ms : List SearchMatch),
      findTextMatchesGo text qtext cs mt ln fuel s = some ms →
      (∀ m ∈ ms, m.match_type = mt ∧ m.line_number = ln ∧
        m.line_text = text ∧ m.end_offset = m.start_offset + qtext.length ∧
        s ≤ m.start_offset ∧ occursAt cs text qtext m.start_offset) ∧
      List.Chain' (fun m₁ m₂ => m₁.end_offset ≤ m₂.start_offset) ms ∧
      (∀ p, s ≤ p → occursAt cs text qtext p →
        ∃ m ∈ ms, m.start_offset ≤ p ∧ p < m.end_offset) := by
  intro fuel
  induction fuel with
  | zero => intro s ms h; exact absurd h (by simp [findTextMatchesGo])
  | succ fuel ih =>
      intro s ms h
      rw [findTextMatchesGo, matchPos_eq text qtext cs s] at h
      cases hfind : findSubstr ((matchTarget cs text).drop s)
          (matchPat cs qtext) with
      | none =>
          rw [hfind] at h
          simp only [Option.some_inj] at h
          subst h
          refine ⟨by simp, by simp, ?_⟩
          intro p hsp hocc
          have hnone := findSubstr_none _ _ hfind (p - s)
          rw [List.drop_drop, Nat.add_sub_cancel' hsp] at hnone
          exact absurd ((occursAt_iff cs text qtext p).mp hocc) hnone
      | some pos =>
          rw [hfind] at h
          simp only [Option.map_eq_some'] at h
          obtain ⟨ms', hms', rfl⟩ := h
          obtain ⟨hmem, hchain, hcompl⟩ := ih (s + pos + qtext.length) ms' hms'
          obtain ⟨hpref, hmin⟩ := findSubstr_some _ _ _ hfind
          rw [List.drop_drop] at hpref
          have hocc₀ : occursAt cs text qtext (s + pos) :=
            (occursAt_iff cs text qtext (s + pos)).mpr hpref
          refine ⟨?_, ?_, ?_⟩
          · intro m hm
            rcases List.mem_cons.mp hm with rfl | hm'
            · exact ⟨rfl, rfl, rfl, rfl, Nat.le_add_right s pos, hocc₀⟩
            · obtain ⟨h1, h2, h3, h4, h5, h6⟩ := hmem m hm'
              exact ⟨h1, h2, h3, h4, by omega, h6⟩
          · refine List.Chain'.cons' hchain ?_
            intro y hy
            have hyhead : y ∈ ms' := List.mem_of_mem_head? hy
            exact (hmem y hyhead).2.2.2.2.1
          · intro p hsp hocc
            by_cases hplt : p < s + pos
            · exfalso
              have hq := hmin (p - s) (by omega)
              rw [List.drop_drop, Nat.add_sub_cancel' hsp] at hq
              exact hq ((occursAt_iff cs text qtext p).mp hocc)
            · by_cases hpend : p < s + pos + qtext.length
              · refine ⟨_, List.mem_cons_self _ _, ?_⟩
                show s + pos ≤ p ∧ p < s + pos + qtext.length
                omega
              · obtain ⟨m, hm, hle, hlt⟩ := hcompl p (by omega) hocc
                exact ⟨m, by simp [hm], hle, hlt⟩

theorem findTextMatchesGo_total (text qtext : List Char) (cs : Bool)
    (mt : MatchType) (ln : Nat) (hq : qtext ≠ []) :
    ∀ (fuel s : Nat), s ≤ text.length → text.length + 1 ≤ fuel + s →
      (findTextMatchesGo text qtext cs mt ln fuel s).isSome := by
  intro fuel
  induction fuel with
  | zero => intro s hs hf; omega
  | succ fuel ih =>
      intro s hs hf
      rw [findTextMatchesGo, matchPos_eq text qtext cs s]
      cases hfind : findSubstr ((matchTarget cs text).drop s)
          (matchPat cs qtext) with
      | none => simp
      | some pos =>
          have hbound := findSubstr_some_bound _ _ _
            (matchPat_ne_nil cs qtext hq) hfind
          rw [List.length_drop, length_matchTarget, length_matchPat] at hbound
          have hqpos : 0 < qtext.length := List.length_pos.mpr hq
          rw [Option.isSome_map']
          exact ih (s + pos + qtext.length) (by omega) (by omega)

/-- C5: literal (non-regex) matching finds all non-overlapping occurrences.
For every haystack and non-empty needle, `find_text_matches` terminates and
every reported match is a real occurrence (compared after lowercasing both
sides when `case_sensitive` is false) spanning exactly the needle's length;
consecutive matches do not overlap (each scan resumes at the end offset of
the previous match); and every occurrence position overlaps some reported
match, so none is skipped.  In particular, the case-insensitive query
`"note"` on `"Note NOTE note"` yields exactly the three matches at offsets
0, 5 and 10. -/
theorem find_text_matches_nonoverlapping :
    (∀ (text qtext : List Char) (cs : Bool) (mt : MatchType) (ln : Nat),
      qtext ≠ [] →
      ∃ ms, find_text_matches text
          { text := qtext, is_regex := false, folder_id := none,
            case_sensitive := cs } mt ln =
          some (if ms.isEmpty then none else some ms) ∧
        (∀ m ∈ ms, m.match_type = mt ∧ m.line_number = ln ∧
          m.line_text = text ∧
          m.end_offset = m.start_offset + qtext.length ∧
          occursAt cs text qtext m.start_offset) ∧
        List.Chain' (fun m₁ m₂ => m₁.end_offset ≤ m₂.start_offset) ms ∧
        (∀ p, occursAt cs text qtext p →
          ∃ m ∈ ms, m.start_offset ≤ p ∧ p < m.end_offset)) ∧
    find_text_matches "Note NOTE note".data
        { text := "note".data, is_regex := false, folder_id := none,
          case_sensitive := false } .Content 0 =
      some (some
        [ { line_number := 0, line_text := "Note NOTE note".data,
            start_offset := 0, end_offset := 4, match_type := .Content },
          { line_number := 0, line_text := "Note NOTE note".data,
            start_offset := 5, end_offset := 9, match_type := .Content },
          { line_number := 0, line_text := "Note NOTE note".data,
            start_offset := 10, end_offset := 14, match_type := .Content } ]) := by
  constructor
  · intro text qtext cs mt ln hq
    have htotal := findTextMatchesGo_total text qtext cs mt ln hq
      (text.length + 2) 0 (by omega) (by omega)
    obtain ⟨ms, hms⟩ := Option.isSome_iff_exists.mp htotal
    obtain ⟨hmem, hchain, hcompl⟩ :=
      findTextMatchesGo_spec text qtext cs mt ln (text.length + 2) 0 ms hms
    refine ⟨ms, ?_, ?_, hchain, ?_⟩
    · simp [find_text_matches, hms]
    · intro m hm
      obtain ⟨h1, h2, h3, h4, -, h6⟩ := hmem m hm
      exact ⟨h1, h2, h3, h4, h6⟩
    · intro p hocc
      exact hcompl p (by omega) hocc
  · decide

/-- C5 witness: the general statement instantiated on the claim's concrete
input (needle `"note"`, case-insensitive). -/
theorem find_text_matches_nonoverlapping_witness :
    ∃ ms, find_text_matches "Note NOTE note".data
        { text := "note".data, is_regex := false, folder_id := none,
          case_sensitive := false } .Content 0 =
        some (if ms.isEmpty then none else some ms) ∧
      (∀ m ∈ ms, m.match_type = .Content ∧ m.line_number = 0 ∧
        m.line_text = "Note NOTE note".data ∧
        m.end_offset = m.start_offset + "note".data.length ∧
        occursAt false "Note NOTE note".data "note".data m.start_offset) ∧
      List.Chain' (fun m₁ m₂ => m₁.end_offset ≤ m₂.start_offset) ms ∧
      (∀ p, occursAt false "Note NOTE note".data "note".data p →
        ∃ m ∈ ms, m.start_offset ≤ p ∧ p < m.end_offset) :=
  find_text_matches_nonoverlapping.1 "Note NOTE note".data "note".data false
    .Content 0 (by decide)

/-! ## Result ordering (C7) -/

theorem then_eq_lt_iff (o₁ o₂ : Ordering) :
    o₁.then o₂ = .lt ↔ o₁ = .lt ∨ (o₁ = .eq ∧ o₂ = .lt) := by
  cases o₁ <;> simp [Ordering.then]

theorem then_ne_gt_iff (o₁ o₂ : Ordering) :
    o₁.then o₂ ≠ .gt ↔ o₁ = .lt ∨ (o₁ = .eq ∧ o₂ ≠ .gt) := by
  cases o₁ <;> simp [Ordering.then]

theorem natCmp_lt_iff (x y : Nat) : natCmp x y = .lt ↔ x < y := by
  unfold natCmp
  split_ifs with h1 h2 <;> simp <;> omega

theorem natCmp_eq_iff (x y : Nat) : natCmp x y = .eq ↔ x = y := by
  unfold natCmp
  split_ifs with h1 h2 <;> simp <;> omega

theorem cmpStr_ne_gt_trans :
    ∀ (x y z : List Char), cmpStr x y ≠ .gt → cmpStr y z ≠ .gt →
      cmpStr x z ≠ .gt := by
  intro x
  induction x with
  | nil =>
      intro y z _ _
      cases z <;> simp [cmpStr]
  | cons a as ih =>
      intro y z hxy hyz
      cases y with
      | nil => simp [cmpStr] at hxy
      | cons b bs =>
          cases z with
          | nil => simp [cmpStr] at hyz
          | cons c cs' =>
              simp only [cmpStr, then_ne_gt_iff, natCmp_lt_iff,
                natCmp_eq_iff] at hxy hyz ⊢
              rcases hxy with h1 | ⟨h1, h1'⟩ <;>
                rcases hyz with h2 | ⟨h2, h2'⟩
              · exact .inl (by omega)
              · exact .inl (by omega)
              · exact .inl (by omega)
              · exact .inr ⟨by omega, ih bs cs' h1' h2'⟩

theorem cmpResult_ne_gt_trans (a b c : SearchResult)
    (hab : cmpResult a b ≠ .gt) (hbc : cmpResult b c ≠ .gt) :
    cmpResult a c ≠ .gt := by
  simp only [cmpResult, then_ne_gt_iff, natCmp_lt_iff, natCmp_eq_iff]
    at hab hbc ⊢
  rcases hab with h1 | ⟨h1, h1'⟩ <;> rcases hbc with h2 | ⟨h2, h2'⟩
  · exact .inl (by omega)
  · exact .inl (by omega)
  · exact .inl (by omega)
  · refine .inr ⟨by omega, ?_⟩
    rcases h1' with g1 | ⟨g1, g1'⟩ <;> rcases h2' with g2 | ⟨g2, g2'⟩
    · exact .inl (by omega)
    · exact .inl (by omega)
    · exact .inl (by omega)
    · exact .inr ⟨by omega, cmpStr_ne_gt_trans _ _ _ g1' g2'⟩

theorem natCmp_swap (x y : Nat) : natCmp x y = (natCmp y x).swap := by
  unfold natCmp
  split_ifs <;> simp [Ordering.swap] <;> omega

theorem cmpStr_swap : ∀ (x y : List Char), cmpStr x y = (cmpStr y x).swap := by
  intro x
  induction x with
  | nil => intro y; cases y <;> simp [cmpStr, Ordering.swap]
  | cons a as ih =>
      intro y
      cases y with
      | nil => simp [cmpStr, Ordering.swap]
      | cons b bs =>
          simp only [cmpStr]
          rw [natCmp_swap a.toNat b.toNat, ih bs]
          cases natCmp b.toNat a.toNat <;>
            cases cmpStr bs as <;> simp [Ordering.then, Ordering.swap]

theorem cmpResult_swap (a b : SearchResult) :
    cmpResult a b = (cmpResult b a).swap := by
  simp only [cmpResult]
  rw [natCmp_swap (titleMatchCount b) (titleMatchCount a),
    natCmp_swap b.matches'.length a.matches'.length,
    cmpStr_swap a.note.title b.note.title]
  cases natCmp (titleMatchCount a) (titleMatchCount b) <;>
    cases natCmp a.matches'.length b.matches'.length <;>
    cases cmpStr b.note.title a.note.title <;>
    simp [Ordering.then, Ordering.swap]

theorem cmpResult_total (a b : SearchResult) :
    cmpResult a b ≠ .gt ∨ cmpResult b a ≠ .gt := by
  by_cases h : cmpResult a b = .gt
  · right
    rw [cmpResult_swap] at h
    cases hba : cmpResult b a <;> simp [hba, Ordering.swap] at h ⊢
  · exact .inl h

theorem sortResults_sorted (results : List SearchResult) :
    (sortResults results).Pairwise (fun a b => cmpResult a b ≠ .gt) := by
  have hs := @List.sorted_mergeSort SearchResult
    (fun a b => decide (cmpResult a b ≠ .gt))
    (fun a b c hab hbc => decide_eq_true
      (cmpResult_ne_gt_trans a b c (of_decide_eq_true hab)
        (of_decide_eq_true hbc)))
    (fun a b => by
      rcases cmpResult_total a b with h | h <;> simp [h])
    results
  exact hs.imp (fun hab => of_decide_eq_true hab)

/-- C7: whenever `search` returns a result list, that list is sorted
(pairwise non-descending) under the comparator that orders by descending
Title-match count, then descending total match count, then ascending note
title — so the ordering is a deterministic function of the data. -/
theorem search_results_sorted (C : RegexCompiler) (h : List (List Char))
    (nb : NotebookData) (query : SearchQuery) (rs : List SearchResult)
    (hok : (EnhancedSearch.search C h nb query).2 = some (.ok rs)) :
    rs.Pairwise (fun a b => cmpResult a b ≠ .gt) := by
  simp only [EnhancedSearch.search] at hok
  split at hok
  · exact absurd hok (by simp)
  · exact absurd hok (by simp)
  · simp only [Option.some_inj, Except.ok.injEq] at hok
    rw [← hok]
    exact sortResults_sorted _

/-- The single search result on the sample notebook for the query `"n"`. -/
def sampleSearchResult : SearchResult :=
  { note := { id := 10, title := ['n'], content := [], folder_id := some 3,
              created_at := 0, modified_at := 0, tags := [],
              file_path := none },
    matches' := [ { line_number := 0, line_text := ['n'], start_offset := 0,
                    end_offset := 1, match_type := .Title } ] }

/-- C7 witness: a concrete search on the sample notebook returns its result
list, and the theorem yields its sortedness. -/
theorem search_results_sorted_witness :
    ([sampleSearchResult] : List SearchResult).Pairwise
      (fun a b => cmpResult a b ≠ .gt) := by
  have hgo : searchGo failCompiler
      { text := ['n'], is_regex := false, folder_id := none,
        case_sensitive := true } sampleNotebook.notes =
      some (.ok [sampleSearchResult]) := rfl
  refine search_results_sorted failCompiler [] sampleNotebook
    { text := ['n'], is_regex := false, folder_id := none,
      case_sensitive := true } [sampleSearchResult] ?_
  unfold EnhancedSearch.search
  simp [hgo, sortResults]

/-! ## Folder moves (C2) -/

theorem find?_id_eq (l : List Folder) (hnodup : (l.map Folder.id).Nodup)
    (g : Folder) (hg : g ∈ l) (x : Nat) (hx : g.id = x) :
    l.find? (fun f => f.id == x) = some g := by
  induction l with
  | nil => cases hg
  | cons h t ih =>
      by_cases hh : h.id = x
      · have hhg : h = g := by
          rcases List.mem_cons.mp hg with rfl | hgt
          · rfl
          · exfalso
            have hmem : h.id ∈ t.map Folder.id :=
              List.mem_map.mpr ⟨g, hgt, by rw [hx, hh]⟩
            exact (List.nodup_cons.mp hnodup).1 hmem
        subst hhg
        exact List.find?_cons_of_pos _ (by simp [hh])
      · have hgt : g ∈ t := by
          rcases List.mem_cons.mp hg with rfl | hgt
          · exact absurd hx hh
          · exact hgt
        rw [List.find?_cons_of_neg _ (by simp [hh])]
        exact ih (List.nodup_cons.mp hnodup).2 hgt

theorem is_folder_ancestor_sound (nb : NotebookData) :
    ∀ (fuel anc desc : Nat),
      is_folder_ancestor nb fuel anc desc = true →
      Relation.ReflTransGen (PStep nb) desc anc := by
  intro fuel
  induction fuel with
  | zero => intro anc desc h; simp [is_folder_ancestor] at h
  | succ fuel ih =>
      intro anc desc h
      rw [is_folder_ancestor] at h
      by_cases hab : (anc == desc) = true
      · obtain rfl : anc = desc := eq_of_beq hab
        exact Relation.ReflTransGen.refl
      · rw [if_neg hab] at h
        cases hfind : nb.folders.find? (fun f => f.id == desc) with
        | none => rw [hfind] at h; simp at h
        | some f =>
            rw [hfind] at h
            cases hp : f.parent_id with
            | none => simp only [hp] at h; exact absurd h (by simp)
            | some p =>
                simp only [hp] at h
                have hmem : f ∈ nb.folders := List.mem_of_find?_eq_some hfind
                have hid : f.id = desc := by
                  have := List.find?_some hfind
                  simpa using this
                exact Relation.ReflTransGen.head ⟨f, hmem, hid, hp⟩ (ih anc p h)

theorem chain'_mem_transGen {r : Nat → Nat → Prop} :
    ∀ (t : List Nat) (c b : Nat), List.Chain' r (c :: t) → b ∈ t →
      Relation.TransGen r c b := by
  intro t
  induction t with
  | nil => intro c b _ hb; cases hb
  | cons d t' ih =>
      intro c b hchain hb
      obtain ⟨rcd, hchain'⟩ := List.chain'_cons.mp hchain
      rcases List.mem_cons.mp hb with rfl | hb'
      · exact Relation.TransGen.single rcd
      · exact Relation.TransGen.head rcd (ih d b hchain' hb')

theorem chain'_sublist_transGen {r : Nat → Nat → Prop} :
    ∀ (L : List Nat) (a b : Nat), L.Chain' r → List.Sublist [a, b] L →
      Relation.TransGen r a b := by
  intro L
  induction L with
  | nil => intro a b _ hsub; simp at hsub
  | cons c t ih =>
      intro a b hchain hsub
      cases hsub with
      | cons _ h => exact ih a b hchain.tail h
      | cons₂ _ h =>
          exact chain'_mem_transGen t c b hchain (List.singleton_sublist.mp h)

theorem chain_nodup_of_acyclic (nb : NotebookData) (hacyc : Acyclic nb)
    (b : Nat) (l : List Nat) (hchain : List.Chain (PStep nb) b l) :
    (b :: l).Nodup := by
  rw [List.nodup_iff_sublist]
  intro a hsub
  exact hacyc a (chain'_sublist_transGen (b :: l) a a hchain hsub)

theorem chain_sources_mem (nb : NotebookData) :
    ∀ (l : List Nat) (b : Nat), List.Chain (PStep nb) b l →
      ∀ x ∈ (b :: l).dropLast, x ∈ nb.folders.map Folder.id := by
  intro l
  induction l with
  | nil => intro b _ x hx; simp at hx
  | cons c t ih =>
      intro b hchain x hx
      obtain ⟨hbc, hchain'⟩ := List.chain_cons.mp hchain
      rcases List.mem_cons.mp (by simpa using hx) with rfl | hx'
      · obtain ⟨f, hf, hfid, -⟩ := hbc
        exact List.mem_map.mpr ⟨f, hf, hfid⟩
      · exact ih c hchain' x (by simpa using hx')

theorem ianc_of_chain (nb : NotebookData)
    (hnodup : (nb.folders.map Folder.id).Nodup) (a : Nat) :
    ∀ (l : List Nat) (b : Nat) (fuel : Nat),
      List.Chain (PStep nb) b l →
      (b :: l).getLast (List.cons_ne_nil _ _) = a →
      l.length < fuel → is_folder_ancestor nb fuel a b = true := by
  intro l
  induction l with
  | nil =>
      intro b fuel _ hlast hfuel
      have hba : b = a := by simpa using hlast
      subst hba
      cases fuel with
      | zero => omega
      | succ fuel => simp [is_folder_ancestor]
  | cons c t ih =>
      intro b fuel hchain hlast hfuel
      cases fuel with
      | zero => omega
      | succ fuel =>
          rw [is_folder_ancestor]
          by_cases hab : a = b
          · simp [hab]
          · rw [if_neg (by simpa using hab)]
            obtain ⟨hbc, hchain'⟩ := List.chain_cons.mp hchain
            obtain ⟨g, hg, hgid, hgp⟩ := hbc
            simp only [find?_id_eq nb.folders hnodup g hg b hgid, hgp]
            refine ih c fuel hchain' ?_
              (by simpa using Nat.lt_of_succ_lt_succ hfuel)
            rw [← hlast, List.getLast_cons (List.cons_ne_nil _ _)]

theorem is_folder_ancestor_complete (nb : NotebookData)
    (hnodup : (nb.folders.map Folder.id).Nodup) (hacyc : Acyclic nb)
    (a b : Nat) (h : Relation.ReflTransGen (PStep nb) b a) :
    is_folder_ancestor nb (nb.folders.length + 1) a b = true := by
  obtain ⟨l, hchain, hlast⟩ := List.exists_chain_of_relationReflTransGen h
  have hnd : (b :: l).Nodup := chain_nodup_of_acyclic nb hacyc b l hchain
  have hsub : ∀ x ∈ (b :: l).dropLast, x ∈ nb.folders.map Folder.id :=
    chain_sources_mem nb l b hchain
  have hndrop : ((b :: l).dropLast).Nodup :=
    hnd.sublist (List.dropLast_sublist _)
  have hlen : ((b :: l).dropLast).length ≤ (nb.folders.map Folder.id).length :=
    (List.subperm_of_subset hndrop hsub).length_le
  have hlen' : l.length ≤ nb.folders.length := by
    simpa using hlen
  exact ianc_of_chain nb hnodup a l b (nb.folders.length + 1) hchain hlast
    (by omega)

/-- C2: for every acyclic, well-formed notebook and every folder `f` in it:
moving `f` into any descendant of itself (or into itself) fails with the
cycle error and leaves the notebook unchanged; moving `f` into its current
parent fails as a no-op; moving `f` into an unrelated folder `c` succeeds,
setting `f`'s `parent_id` to `c` and removing `f` from the root-id sequence
exactly if it was there; and moving a nested `f` to the root succeeds and
appends `f` to the root-id sequence. -/
theorem move_folder_spec (nb : NotebookData)
    (hnodup : (nb.folders.map Folder.id).Nodup) (hacyc : Acyclic nb)
    (hroots : RootsInv nb) (f : Folder) (hf : f ∈ nb.folders) :
    (∀ B, Relation.ReflTransGen (PStep nb) B f.id →
      move_folder nb f.id (some B) =
        (.error "Cannot move folder into its own subfolder", nb)) ∧
    (move_folder nb f.id f.parent_id =
      (.error "Folder is already in this location", nb)) ∧
    (∀ c, (∃ g ∈ nb.folders, g.id = c) →
      ¬ Relation.ReflTransGen (PStep nb) c f.id → f.parent_id ≠ some c →
      move_folder nb f.id (some c) =
        (.ok (), { nb with
          folders := nb.folders.map (fun g =>
            if g.id == f.id then { g with parent_id := some c } else g),
          root_folder_ids :=
            nb.root_folder_ids.filter (fun id => id ≠ f.id) })) ∧
    (f.parent_id ≠ none →
      move_folder nb f.id none =
        (.ok (), { nb with
          folders := nb.folders.map (fun g =>
            if g.id == f.id then { g with parent_id := none } else g),
          root_folder_ids := nb.root_folder_ids ++ [f.id] })) := by
  have hfind : nb.folders.find? (fun g => g.id == f.id) = some f :=
    find?_id_eq nb.folders hnodup f hf f.id rfl
  have hnotroot : f.parent_id ≠ none → f.id ∉ nb.root_folder_ids := by
    intro hp hmem
    exact hp (hroots f.id hmem f hf rfl)
  refine ⟨?_, ?_, ?_, ?_⟩
  · intro B hB
    have hanc := is_folder_ancestor_complete nb hnodup hacyc f.id B hB
    simp [move_folder, hanc]
  · cases hp : f.parent_id with
    | none =>
        simp [move_folder, move_folder.move_folder_after_check, hfind, hp]
    | some P =>
        have hanc : is_folder_ancestor nb (nb.folders.length + 1) f.id P =
            false := by
          by_contra hanc
          have htrue : is_folder_ancestor nb (nb.folders.length + 1) f.id P =
              true := by simpa using hanc
          have hchain := is_folder_ancestor_sound nb _ _ _ htrue
          exact hacyc f.id (Relation.TransGen.head' ⟨f, hf, rfl, hp⟩ hchain)
        simp [move_folder, hanc, move_folder.move_folder_after_check, hfind,
          hp]
  · intro c hcex hnd hnp
    have hanc : is_folder_ancestor nb (nb.folders.length + 1) f.id c =
        false := by
      by_contra hanc
      have htrue : is_folder_ancestor nb (nb.folders.length + 1) f.id c =
          true := by simpa using hanc
      exact hnd (is_folder_ancestor_sound nb _ _ _ htrue)
    have hbeq : (f.parent_id == some c) = false := by
      simpa using hnp
    cases hp : f.parent_id with
    | none =>
        simp [move_folder, hanc, move_folder.move_folder_after_check, hfind,
          hp, hp ▸ hbeq]
    | some P =>
        have hroot : f.id ∉ nb.root_folder_ids := hnotroot (by simp [hp])
        have hfilter :
            List.filter (fun id => !decide (id = f.id)) nb.root_folder_ids =
              nb.root_folder_ids :=
          List.filter_eq_self.mpr (fun x hx => by
            simp only [Bool.not_eq_true', decide_eq_false_iff_not]
            exact fun hxf => hroot (hxf ▸ hx))
        simp [move_folder, hanc, move_folder.move_folder_after_check, hfind,
          hp, hp ▸ hbeq, hfilter]
  · intro hp
    have hbeq : (f.parent_id == (none : Option Nat)) = false := by
      cases hpc : f.parent_id with
      | none => exact absurd hpc hp
      | some P => simp
    have hcontains : nb.root_folder_ids.contains f.id = false := by
      have := hnotroot hp
      simpa using this
    cases hpc : f.parent_id with
    | none => exact absurd hpc hp
    | some P =>
        simp [move_folder, move_folder.move_folder_after_check, hfind,
          hpc, hpc ▸ hbeq, hcontains]
        exact hnotroot hp

/-- Acyclicity follows from any rank function that strictly decreases along
parent steps. -/
theorem acyclic_of_rank (nb : NotebookData) (rank : Nat → Nat)
    (hr : ∀ x y, PStep nb x y → rank y < rank x) : Acyclic nb := by
  intro x hx
  have hlt : ∀ a b, Relation.TransGen (PStep nb) a b → rank b < rank a := by
    intro a b h
    induction h with
    | single h1 => exact hr _ _ h1
    | tail _ hstep ih => exact lt_trans (hr _ _ hstep) ih
  exact absurd (hlt x x hx) (lt_irrefl _)

theorem sampleNotebook_acyclic : Acyclic sampleNotebook := by
  refine acyclic_of_rank _ (fun id => if id = 2 then 1 else 0) ?_
  rintro x y ⟨g, hg, rfl, hgp⟩
  simp only [sampleNotebook, List.mem_cons, List.not_mem_nil, or_false]
    at hg
  rcases hg with rfl | rfl | rfl
  · exact absurd hgp (by simp)
  · obtain rfl : (1 : Nat) = y := by simpa using hgp
    decide
  · exact absurd hgp (by simp)

theorem sampleNotebook_rootsInv : RootsInv sampleNotebook := by
  intro rid hrid f hf hfid
  simp only [sampleNotebook, List.mem_cons, List.not_mem_nil, or_false]
    at hrid hf
  rcases hf with rfl | rfl | rfl <;> rcases hrid with rfl | rfl <;> simp_all

theorem sampleNotebook_no_desc_3_1 :
    ¬ Relation.ReflTransGen (PStep sampleNotebook) 3 1 := by
  intro h
  rcases Relation.ReflTransGen.cases_head h with h31 | ⟨y, hstep, -⟩
  · simp at h31
  · obtain ⟨g, hg, hgid, hgp⟩ := hstep
    simp only [sampleNotebook, List.mem_cons, List.not_mem_nil, or_false]
      at hg
    rcases hg with rfl | rfl | rfl <;> simp_all

/-- C2 witness: in the sample notebook (folder 2 inside folder 1, folder 3
at root), moving folder 1 into its descendant 2 and into its current parent
(root) both fail and leave the notebook unchanged, moving folder 1 into the
unrelated folder 3 reparents it and removes it from the root ids, and moving
the nested folder 2 to root appends it to the root ids. -/
theorem move_folder_spec_witness :
    move_folder sampleNotebook 1 (some 2) =
      (.error "Cannot move folder into its own subfolder", sampleNotebook) ∧
    move_folder sampleNotebook 1 none =
      (.error "Folder is already in this location", sampleNotebook) ∧
    move_folder sampleNotebook 1 (some 3) =
      (.ok (),
        { folders :=
            [ { id := 1, name := ['A'], parent_id := some 3, created_at := 0,
                expanded := true },
              { id := 2, name := ['B'], parent_id := some 1, created_at := 0,
                expanded := true },
              { id := 3, name := ['C'], parent_id := none, created_at := 0,
                expanded := true } ],
          notes := sampleNotebook.notes,
          root_folder_ids := [3] }) ∧
    move_folder sampleNotebook 2 none =
      (.ok (),
        { folders :=
            [ { id := 1, name := ['A'], parent_id := none, created_at := 0,
                expanded := true },
              { id := 2, name := ['B'], parent_id := none, created_at := 0,
                expanded := true },
              { id := 3, name := ['C'], parent_id := none, created_at := 0,
                expanded := true } ],
          notes := sampleNotebook.notes,
          root_folder_ids := [1, 3, 2] }) := by
  have h1 := move_folder_spec sampleNotebook (by decide)
    sampleNotebook_acyclic sampleNotebook_rootsInv
    { id := 1, name := ['A'], parent_id := none, created_at := 0,
      expanded := true } (by decide)
  have h2 := move_folder_spec sampleNotebook (by decide)
    sampleNotebook_acyclic sampleNotebook_rootsInv
    { id := 2, name := ['B'], parent_id := some 1, created_at := 0,
      expanded := true } (by decide)
  refine ⟨?_, h1.2.1, ?_, ?_⟩
  · refine h1.1 2 (Relation.ReflTransGen.single ?_)
    exact ⟨{ id := 2, name := ['B'], parent_id := some 1, created_at := 0,
             expanded := true }, by decide, rfl, rfl⟩
  · have := h1.2.2.1 3
      ⟨{ id := 3, name := ['C'], parent_id := none, created_at := 0,
         expanded := true }, by decide, rfl⟩
      sampleNotebook_no_desc_3_1 (by decide)
    exact this
  · have := h2.2.2.2 (by decide)
    exact this

/-! ## Tree flattening (C4) -/

/-- The folder ids a full (expansion-ignoring) traversal of the built tree
below `fid` would visit, indexed by the builder's fuel. -/
def builtFolderIds (nb : NotebookData) : Nat → Nat → List Nat
  | 0, fid => [fid]
  | fuel + 1, fid =>
      fid ::
        (nb.childFoldersOf fid).flatMap (fun c => builtFolderIds nb fuel c.id)

/-- The note ids a full traversal of the built tree below `fid` would
visit. -/
def builtNoteIds (nb : NotebookData) : Nat → Nat → List Nat
  | 0, fid => (nb.get_folder_notes (some fid)).map Note.id
  | fuel + 1, fid =>
      (nb.get_folder_notes (some fid)).map Note.id ++
        (nb.childFoldersOf fid).flatMap (fun c => builtNoteIds nb fuel c.id)

/-- Ids of the folder rows of a flattened item list. -/
def folderIdsOf (items : List TreeItem) : List Nat :=
  (items.filter (fun t => t.item_type == .Folder)).map TreeItem.id

/-- Ids of the note rows of a flattened item list. -/
def noteIdsOf (items : List TreeItem) : List Nat :=
  (items.filter (fun t => t.item_type == .Note)).map TreeItem.id

theorem mem_childFoldersOf (nb : NotebookData) (fid : Nat) (c : Folder) :
    c ∈ nb.childFoldersOf fid ↔ c ∈ nb.folders ∧ c.parent_id = some fid := by
  simp [NotebookData.childFoldersOf, List.mem_filter]

theorem childFoldersOf_ids_nodup (nb : NotebookData)
    (hF : (nb.folders.map Folder.id).Nodup) (fid : Nat) :
    ((nb.childFoldersOf fid).map Folder.id).Nodup :=
  hF.sublist ((List.filter_sublist _).map Folder.id)

theorem builtFolderIds_reach (nb : NotebookData) :
    ∀ (fuel fid x : Nat), x ∈ builtFolderIds nb fuel fid →
      Relation.ReflTransGen (PStep nb) x fid := by
  intro fuel
  induction fuel with
  | zero =>
      intro fid x hx
      simp only [builtFolderIds, List.mem_singleton] at hx
      subst hx
      exact Relation.ReflTransGen.refl
  | succ fuel ih =>
      intro fid x hx
      rw [builtFolderIds, List.mem_cons] at hx
      rcases hx with rfl | hx
      · exact Relation.ReflTransGen.refl
      · rw [List.mem_flatMap] at hx
        obtain ⟨c, hc, hcx⟩ := hx
        obtain ⟨hcm, hcp⟩ := (mem_childFoldersOf nb fid c).mp hc
        exact Relation.ReflTransGen.tail (ih c.id x hcx) ⟨c, hcm, rfl, hcp⟩

theorem PStep_det (nb : NotebookData)
    (hF : (nb.folders.map Folder.id).Nodup) (x y₁ y₂ : Nat)
    (h₁ : PStep nb x y₁) (h₂ : PStep nb x y₂) : y₁ = y₂ := by
  obtain ⟨f, hf, hfid, hfp⟩ := h₁
  obtain ⟨g, hg, hgid, hgp⟩ := h₂
  have hfg : f = g :=
    List.inj_on_of_nodup_map hF hf hg (by rw [hfid, hgid])
  subst hfg
  rw [hfp] at hgp
  exact Option.some_inj.mp hgp

theorem reach_comparable (nb : NotebookData)
    (hF : (nb.folders.map Folder.id).Nodup) (a b : Nat) :
    ∀ x, Relation.ReflTransGen (PStep nb) x a →
      Relation.ReflTransGen (PStep nb) x b →
      Relation.ReflTransGen (PStep nb) a b ∨
        Relation.ReflTransGen (PStep nb) b a := by
  intro x h1
  induction h1 using Relation.ReflTransGen.head_induction_on with
  | refl => intro h2; exact .inl h2
  | head hstep _ ih =>
      intro h2
      rcases Relation.ReflTransGen.cases_head h2 with rfl | ⟨y', hstep', htail'⟩
      · right
        exact Relation.ReflTransGen.head hstep (by assumption)
      · have hyy := PStep_det nb hF _ _ _ hstep hstep'
        subst hyy
        exact ih htail'

theorem childFolders_pairwise_ne (nb : NotebookData)
    (hF : (nb.folders.map Folder.id).Nodup) (fid : Nat) :
    (nb.childFoldersOf fid).Pairwise (fun c d => c.id ≠ d.id) :=
  (List.pairwise_map.mp (childFoldersOf_ids_nodup nb hF fid))

theorem builtFolderIds_nodup (nb : NotebookData)
    (hF : (nb.folders.map Folder.id).Nodup) (hacyc : Acyclic nb) :
    ∀ (fuel fid : Nat), (builtFolderIds nb fuel fid).Nodup := by
  intro fuel
  induction fuel with
  | zero => intro fid; simp [builtFolderIds]
  | succ fuel ih =>
      intro fid
      rw [builtFolderIds, List.nodup_cons]
      constructor
      · intro hmem
        rw [List.mem_flatMap] at hmem
        obtain ⟨c, hc, hcin⟩ := hmem
        obtain ⟨hcm, hcp⟩ := (mem_childFoldersOf nb fid c).mp hc
        exact hacyc fid (Relation.TransGen.tail'
          (builtFolderIds_reach nb fuel c.id fid hcin) ⟨c, hcm, rfl, hcp⟩)
      · rw [List.nodup_flatMap]
        refine ⟨fun c _ => ih c.id, ?_⟩
        refine (childFolders_pairwise_ne nb hF fid).imp_of_mem ?_
        intro c d hcmem hdmem hne
        intro x hx1 hx2
        obtain ⟨hcm, hcp⟩ := (mem_childFoldersOf nb fid c).mp hcmem
        obtain ⟨hdm, hdp⟩ := (mem_childFoldersOf nb fid d).mp hdmem
        have r1 := builtFolderIds_reach nb fuel c.id x hx1
        have r2 := builtFolderIds_reach nb fuel d.id x hx2
        rcases reach_comparable nb hF c.id d.id x r1 r2 with hcd | hdc
        · rcases Relation.ReflTransGen.cases_head hcd with heq |
            ⟨z, hstep, htail⟩
          · exact hne heq
          · have hz : z = fid :=
              PStep_det nb hF c.id z fid hstep ⟨c, hcm, rfl, hcp⟩
            rw [hz] at htail
            exact hacyc fid
              (Relation.TransGen.tail' htail ⟨d, hdm, rfl, hdp⟩)
        · rcases Relation.ReflTransGen.cases_head hdc with heq |
            ⟨z, hstep, htail⟩
          · exact hne heq.symm
          · have hz : z = fid :=
              PStep_det nb hF d.id z fid hstep ⟨d, hdm, rfl, hdp⟩
            rw [hz] at htail
            exact hacyc fid
              (Relation.TransGen.tail' htail ⟨c, hcm, rfl, hcp⟩)

theorem builtNoteIds_eq (nb : NotebookData) :
    ∀ (fuel fid : Nat),
      builtNoteIds nb fuel fid =
        (builtFolderIds nb fuel fid).flatMap
          (fun g => (nb.get_folder_notes (some g)).map Note.id) := by
  intro fuel
  induction fuel with
  | zero => intro fid; simp [builtNoteIds, builtFolderIds]
  | succ fuel ih =>
      intro fid
      rw [builtNoteIds, builtFolderIds, List.flatMap_cons, List.flatMap_assoc]
      congr 1
      induction nb.childFoldersOf fid with
      | nil => rfl
      | cons c t iht => simp only [List.flatMap_cons, ih c.id, iht]

theorem get_folder_notes_ids_nodup (nb : NotebookData)
    (hN : (nb.notes.map Note.id).Nodup) (o : Option Nat) :
    ((nb.get_folder_notes o).map Note.id).Nodup :=
  hN.sublist ((List.filter_sublist _).map Note.id)

theorem get_folder_notes_disjoint (nb : NotebookData)
    (hN : (nb.notes.map Note.id).Nodup) (o₁ o₂ : Option Nat)
    (hne : o₁ ≠ o₂) :
    List.Disjoint ((nb.get_folder_notes o₁).map Note.id)
      ((nb.get_folder_notes o₂).map Note.id) := by
  intro x hx1 hx2
  obtain ⟨n₁, hn₁, hid₁⟩ := List.mem_map.mp hx1
  obtain ⟨n₂, hn₂, hid₂⟩ := List.mem_map.mp hx2
  obtain ⟨hn₁m, hn₁f⟩ := List.mem_filter.mp hn₁
  obtain ⟨hn₂m, hn₂f⟩ := List.mem_filter.mp hn₂
  have h12 : n₁ = n₂ :=
    List.inj_on_of_nodup_map hN hn₁m hn₂m (by rw [hid₁, hid₂])
  subst h12
  exact hne (by
    have e₁ : n₁.folder_id = o₁ := by simpa using hn₁f
    have e₂ : n₁.folder_id = o₂ := by simpa using hn₂f
    rw [← e₁, e₂])

theorem builtNoteIds_nodup (nb : NotebookData)
    (hF : (nb.folders.map Folder.id).Nodup) (hacyc : Acyclic nb)
    (hN : (nb.notes.map Note.id).Nodup) (fuel fid : Nat) :
    (builtNoteIds nb fuel fid).Nodup := by
  rw [builtNoteIds_eq, List.nodup_flatMap]
  refine ⟨fun g _ => get_folder_notes_ids_nodup nb hN (some g), ?_⟩
  refine (builtFolderIds_nodup nb hF hacyc fuel fid).imp ?_
  intro g₁ g₂ hne
  exact get_folder_notes_disjoint nb hN (some g₁) (some g₂) (by simpa using hne)

/-- The root folders `build_folder_tree` resolves from the root-id
sequence. -/
def rootFolders (nb : NotebookData) : List Folder :=
  nb.root_folder_ids.filterMap
    (fun rid => nb.folders.find? (fun f => f.id == rid))

theorem build_folder_tree_fuel_eq (nb : NotebookData) (fuel : Nat) :
    nb.build_folder_tree_fuel fuel =
      (rootFolders nb).map (fun f => nb.build_tree_node fuel f 0) := by
  unfold NotebookData.build_folder_tree_fuel rootFolders
  rw [List.map_filterMap]

theorem mem_rootFolders (nb : NotebookData) (f : Folder)
    (hf : f ∈ rootFolders nb) :
    f ∈ nb.folders ∧ f.id ∈ nb.root_folder_ids := by
  obtain ⟨rid, hrid, hfind⟩ := List.mem_filterMap.mp hf
  have hmem : f ∈ nb.folders := List.mem_of_find?_eq_some hfind
  have hid : f.id = rid := by
    have := List.find?_some hfind
    simpa using this
  exact ⟨hmem, hid ▸ hrid⟩

theorem rootFolders_parent_none (nb : NotebookData) (hRI : RootsInv nb)
    (f : Folder) (hf : f ∈ rootFolders nb) : f.parent_id = none := by
  obtain ⟨hmem, hroot⟩ := mem_rootFolders nb f hf
  exact hRI f.id hroot f hmem rfl

theorem rootFolders_pairwise_ne (nb : NotebookData)
    (hR : nb.root_folder_ids.Nodup) :
    (rootFolders nb).Pairwise (fun f g => f.id ≠ g.id) := by
  unfold rootFolders
  rw [List.pairwise_filterMap]
  refine hR.imp_of_mem ?_
  intro r₁ r₂ _ _ hne f₁ hf₁ f₂ hf₂
  have hid₁ : f₁.id = r₁ := by
    have := List.find?_some hf₁
    simpa using this
  have hid₂ : f₂.id = r₂ := by
    have := List.find?_some hf₂
    simpa using this
  rw [hid₁, hid₂]
  exact hne

theorem no_step_from_root (nb : NotebookData)
    (hF : (nb.folders.map Folder.id).Nodup) (f : Folder)
    (hf : f ∈ nb.folders) (hp : f.parent_id = none) (z : Nat) :
    ¬ PStep nb f.id z := by
  rintro ⟨g, hg, hgid, hgp⟩
  have hgf : g = f := List.inj_on_of_nodup_map hF hg hf hgid
  subst hgf
  rw [hp] at hgp
  exact Option.noConfusion hgp

theorem rootBuilt_disjoint (nb : NotebookData)
    (hF : (nb.folders.map Folder.id).Nodup) (hRI : RootsInv nb)
    (fuel : Nat) (f g : Folder) (hf : f ∈ rootFolders nb)
    (hg : g ∈ rootFolders nb) (hne : f.id ≠ g.id) :
    List.Disjoint (builtFolderIds nb fuel f.id)
      (builtFolderIds nb fuel g.id) := by
  intro x hx1 hx2
  have r1 := builtFolderIds_reach nb fuel f.id x hx1
  have r2 := builtFolderIds_reach nb fuel g.id x hx2
  rcases reach_comparable nb hF f.id g.id x r1 r2 with hfg | hgf
  · rcases Relation.ReflTransGen.cases_head hfg with heq | ⟨z, hstep, -⟩
    · exact hne heq
    · exact no_step_from_root nb hF f (mem_rootFolders nb f hf).1
        (rootFolders_parent_none nb hRI f hf) z hstep
  · rcases Relation.ReflTransGen.cases_head hgf with heq | ⟨z, hstep, -⟩
    · exact hne heq.symm
    · exact no_step_from_root nb hF g (mem_rootFolders nb g hg).1
        (rootFolders_parent_none nb hRI g hg) z hstep

/-- All folder ids visited by a full traversal of the built forest. -/
def allBuiltFolderIds (nb : NotebookData) (fuel : Nat) : List Nat :=
  (rootFolders nb).flatMap (fun f => builtFolderIds nb fuel f.id)

/-- All note ids visited by a full traversal of the built forest. -/
def allBuiltNoteIds (nb : NotebookData) (fuel : Nat) : List Nat :=
  (rootFolders nb).flatMap (fun f => builtNoteIds nb fuel f.id)

theorem allBuiltFolderIds_nodup (nb : NotebookData)
    (hF : (nb.folders.map Folder.id).Nodup) (hacyc : Acyclic nb)
    (hR : nb.root_folder_ids.Nodup) (hRI : RootsInv nb) (fuel : Nat) :
    (allBuiltFolderIds nb fuel).Nodup := by
  rw [allBuiltFolderIds, List.nodup_flatMap]
  refine ⟨fun f _ => builtFolderIds_nodup nb hF hacyc fuel f.id, ?_⟩
  refine (rootFolders_pairwise_ne nb hR).imp_of_mem ?_
  intro f g hf hg hne
  exact rootBuilt_disjoint nb hF hRI fuel f g hf hg hne

theorem allBuiltNoteIds_eq (nb : NotebookData) (fuel : Nat) :
    allBuiltNoteIds nb fuel =
      (allBuiltFolderIds nb fuel).flatMap
        (fun g => (nb.get_folder_notes (some g)).map Note.id) := by
  rw [allBuiltNoteIds, allBuiltFolderIds, List.flatMap_assoc]
  congr 1
  funext f
  exact builtNoteIds_eq nb fuel f.id

theorem allBuiltNoteIds_nodup (nb : NotebookData)
    (hF : (nb.folders.map Folder.id).Nodup) (hacyc : Acyclic nb)
    (hR : nb.root_folder_ids.Nodup) (hRI : RootsInv nb)
    (hN : (nb.notes.map Note.id).Nodup) (fuel : Nat) :
    (allBuiltNoteIds nb fuel).Nodup := by
  rw [allBuiltNoteIds_eq, List.nodup_flatMap]
  refine ⟨fun g _ => get_folder_notes_ids_nodup nb hN (some g), ?_⟩
  refine (allBuiltFolderIds_nodup nb hF hacyc hR hRI fuel).imp ?_
  intro g₁ g₂ hne
  exact get_folder_notes_disjoint nb hN (some g₁) (some g₂)
    (by simpa using hne)

theorem mem_allBuiltNoteIds_owner (nb : NotebookData) (fuel : Nat) (x : Nat)
    (hx : x ∈ allBuiltNoteIds nb fuel) :
    ∃ g, x ∈ (nb.get_folder_notes (some g)).map Note.id := by
  rw [allBuiltNoteIds_eq, List.mem_flatMap] at hx
  obtain ⟨g, -, hg⟩ := hx
  exact ⟨g, hg⟩

theorem folderIdsOf_append (a b : List TreeItem) :
    folderIdsOf (a ++ b) = folderIdsOf a ++ folderIdsOf b := by
  simp [folderIdsOf]

theorem noteIdsOf_append (a b : List TreeItem) :
    noteIdsOf (a ++ b) = noteIdsOf a ++ noteIdsOf b := by
  simp [noteIdsOf]

theorem folderIdsOf_noteItems (notes : List Note) (d : Nat) :
    folderIdsOf (notes.map (fun n =>
      ({ id := n.id, name := n.title, item_type := .Note, depth := d,
         expanded := false } : TreeItem))) = [] := by
  induction notes with
  | nil => rfl
  | cons n t ih => simp [folderIdsOf, List.filter_cons, ih]

theorem noteIdsOf_noteItems (notes : List Note) (d : Nat) :
    noteIdsOf (notes.map (fun n =>
      ({ id := n.id, name := n.title, item_type := .Note, depth := d,
         expanded := false } : TreeItem))) = notes.map Note.id := by
  induction notes with
  | nil => rfl
  | cons n t ih => simpa [noteIdsOf, List.filter_cons] using ih

theorem add_forest_eq_flatMap :
    ∀ ts, add_forest_to_items ts = ts.flatMap add_tree_node_to_items := by
  intro ts
  induction ts with
  | nil => rfl
  | cons n t ih => rw [add_forest_to_items, List.flatMap_cons, ih]

theorem folderIdsOf_flatMap {α : Type} (h : α → List TreeItem) :
    ∀ (l : List α),
      folderIdsOf (l.flatMap h) = l.flatMap (fun x => folderIdsOf (h x)) := by
  intro l
  induction l with
  | nil => rfl
  | cons x t ih => rw [List.flatMap_cons, List.flatMap_cons, folderIdsOf_append, ih]

theorem noteIdsOf_flatMap {α : Type} (h : α → List TreeItem) :
    ∀ (l : List α),
      noteIdsOf (l.flatMap h) = l.flatMap (fun x => noteIdsOf (h x)) := by
  intro l
  induction l with
  | nil => rfl
  | cons x t ih => rw [List.flatMap_cons, List.flatMap_cons, noteIdsOf_append, ih]

theorem flatMap_sublist {α β : Type} (l : List α) (f g : α → List β)
    (h : ∀ x ∈ l, List.Sublist (f x) (g x)) :
    List.Sublist (l.flatMap f) (l.flatMap g) := by
  induction l with
  | nil => simp
  | cons x t ih =>
      rw [List.flatMap_cons, List.flatMap_cons]
      exact (h x (by simp)).append (ih (fun y hy => h y (by simp [hy])))

theorem folderIdsOf_items_node (f : Folder) (children : List FolderTreeNode)
    (notes : List Note) (d : Nat) :
    folderIdsOf (add_tree_node_to_items (.mk f children notes d)) =
      f.id ::
        (if f.expanded then folderIdsOf (add_forest_to_items children)
         else []) := by
  rw [add_tree_node_to_items]
  by_cases hexp : f.expanded
  · simp [hexp, folderIdsOf, List.filter_cons, List.filter_append,
      ← folderIdsOf_noteItems notes (d + 1), List.map_append]
  · simp [hexp, folderIdsOf, List.filter_cons]

theorem noteIdsOf_items_node (f : Folder) (children : List FolderTreeNode)
    (notes : List Note) (d : Nat) :
    noteIdsOf (add_tree_node_to_items (.mk f children notes d)) =
      (if f.expanded then
        notes.map Note.id ++ noteIdsOf (add_forest_to_items children)
       else []) := by
  rw [add_tree_node_to_items]
  by_cases hexp : f.expanded
  · simp [hexp, noteIdsOf, List.filter_cons, List.filter_append,
      ← noteIdsOf_noteItems notes (d + 1), List.map_append]
  · simp [hexp, noteIdsOf, List.filter_cons]

theorem folderIdsOf_items_sublist (nb : NotebookData) :
    ∀ (fuel : Nat) (f : Folder) (d : Nat),
      List.Sublist
        (folderIdsOf (add_tree_node_to_items (nb.build_tree_node fuel f d)))
        (builtFolderIds nb fuel f.id) := by
  intro fuel
  induction fuel with
  | zero =>
      intro f d
      rw [NotebookData.build_tree_node, folderIdsOf_items_node,
        builtFolderIds]
      by_cases hexp : f.expanded <;>
        simp [hexp, add_forest_to_items, folderIdsOf]
  | succ fuel ih =>
      intro f d
      rw [NotebookData.build_tree_node, folderIdsOf_items_node,
        builtFolderIds]
      by_cases hexp : f.expanded
      · rw [if_pos hexp]
        refine List.Sublist.cons₂ _ ?_
        rw [add_forest_eq_flatMap, List.flatMap_map, folderIdsOf_flatMap]
        exact flatMap_sublist _ _ _ (fun c _ => ih c (d + 1))
      · rw [if_neg hexp]
        exact List.Sublist.cons₂ _ (List.nil_sublist _)

theorem noteIdsOf_items_sublist (nb : NotebookData) :
    ∀ (fuel : Nat) (f : Folder) (d : Nat),
      List.Sublist
        (noteIdsOf (add_tree_node_to_items (nb.build_tree_node fuel f d)))
        (builtNoteIds nb fuel f.id) := by
  intro fuel
  induction fuel with
  | zero =>
      intro f d
      rw [NotebookData.build_tree_node, noteIdsOf_items_node, builtNoteIds]
      by_cases hexp : f.expanded <;>
        simp [hexp, add_forest_to_items, noteIdsOf]
  | succ fuel ih =>
      intro f d
      rw [NotebookData.build_tree_node, noteIdsOf_items_node, builtNoteIds]
      by_cases hexp : f.expanded
      · rw [if_pos hexp]
        refine List.Sublist.append (List.Sublist.refl _) ?_
        rw [add_forest_eq_flatMap, List.flatMap_map, noteIdsOf_flatMap]
        exact flatMap_sublist _ _ _ (fun c _ => ih c (d + 1))
      · rw [if_neg hexp]
        exact List.nil_sublist _

theorem folderIdsOf_forest_sublist (nb : NotebookData) (fuel : Nat) :
    List.Sublist
      (folderIdsOf (add_forest_to_items (nb.build_folder_tree_fuel fuel)))
      (allBuiltFolderIds nb fuel) := by
  rw [build_folder_tree_fuel_eq, add_forest_eq_flatMap, List.flatMap_map,
    folderIdsOf_flatMap, allBuiltFolderIds]
  exact flatMap_sublist _ _ _ (fun f _ => folderIdsOf_items_sublist nb fuel f 0)

theorem noteIdsOf_forest_sublist (nb : NotebookData) (fuel : Nat) :
    List.Sublist
      (noteIdsOf (add_forest_to_items (nb.build_folder_tree_fuel fuel)))
      (allBuiltNoteIds nb fuel) := by
  rw [build_folder_tree_fuel_eq, add_forest_eq_flatMap, List.flatMap_map,
    noteIdsOf_flatMap, allBuiltNoteIds]
  exact flatMap_sublist _ _ _ (fun f _ => noteIdsOf_items_sublist nb fuel f 0)

theorem noteIdsOf_items_origin (nb : NotebookData) :
    ∀ (fuel : Nat) (f : Folder) (d : Nat), f ∈ nb.folders →
      ∀ x ∈ noteIdsOf (add_tree_node_to_items (nb.build_tree_node fuel f d)),
        ∃ h ∈ nb.folders, h.expanded = true ∧
          x ∈ (nb.get_folder_notes (some h.id)).map Note.id := by
  intro fuel
  induction fuel with
  | zero =>
      intro f d hf x hx
      rw [NotebookData.build_tree_node, noteIdsOf_items_node] at hx
      by_cases hexp : f.expanded
      · rw [if_pos hexp] at hx
        refine ⟨f, hf, hexp, ?_⟩
        simpa [add_forest_to_items, noteIdsOf] using hx
      · rw [if_neg hexp] at hx
        simp at hx
  | succ fuel ih =>
      intro f d hf x hx
      rw [NotebookData.build_tree_node, noteIdsOf_items_node] at hx
      by_cases hexp : f.expanded
      · rw [if_pos hexp] at hx
        rcases List.mem_append.mp hx with hx1 | hx2
        · exact ⟨f, hf, hexp, hx1⟩
        · rw [add_forest_eq_flatMap, List.flatMap_map, noteIdsOf_flatMap,
            List.mem_flatMap] at hx2
          obtain ⟨c, hc, hcx⟩ := hx2
          exact ih c (d + 1) ((mem_childFoldersOf nb f.id c).mp hc).1 x hcx
      · rw [if_neg hexp] at hx
        simp at hx

theorem folderIdsOf_items_origin (nb : NotebookData) :
    ∀ (fuel : Nat) (f : Folder) (d : Nat), f ∈ nb.folders →
      ∀ x ∈ folderIdsOf (add_tree_node_to_items (nb.build_tree_node fuel f d)),
        x = f.id ∨
          ∃ h ∈ nb.folders, h.expanded = true ∧
            ∃ c ∈ nb.folders, c.id = x ∧ c.parent_id = some h.id := by
  intro fuel
  induction fuel with
  | zero =>
      intro f d hf x hx
      rw [NotebookData.build_tree_node, folderIdsOf_items_node] at hx
      by_cases hexp : f.expanded
      · rw [if_pos hexp] at hx
        rcases List.mem_cons.mp hx with rfl | hx'
        · exact .inl rfl
        · simp [add_forest_to_items, folderIdsOf] at hx'
      · rw [if_neg hexp] at hx
        rcases List.mem_cons.mp hx with rfl | hx'
        · exact .inl rfl
        · simp at hx'
  | succ fuel ih =>
      intro f d hf x hx
      rw [NotebookData.build_tree_node, folderIdsOf_items_node] at hx
      by_cases hexp : f.expanded
      · rw [if_pos hexp] at hx
        rcases List.mem_cons.mp hx with rfl | hx'
        · exact .inl rfl
        · rw [add_forest_eq_flatMap, List.flatMap_map, folderIdsOf_flatMap,
            List.mem_flatMap] at hx'
          obtain ⟨c, hc, hcx⟩ := hx'
          obtain ⟨hcm, hcp⟩ := (mem_childFoldersOf nb f.id c).mp hc
          rcases ih c (d + 1) hcm x hcx with rfl | hdeep
          · exact .inr ⟨f, hf, hexp, c, hcm, rfl, hcp⟩
          · exact .inr hdeep
      · rw [if_neg hexp] at hx
        rcases List.mem_cons.mp hx with rfl | hx'
        · exact .inl rfl
        · simp at hx'

theorem noteIdsOf_forest_origin (nb : NotebookData) (fuel : Nat) :
    ∀ x ∈ noteIdsOf (add_forest_to_items (nb.build_folder_tree_fuel fuel)),
      ∃ h ∈ nb.folders, h.expanded = true ∧
        x ∈ (nb.get_folder_notes (some h.id)).map Note.id := by
  rw [build_folder_tree_fuel_eq, add_forest_eq_flatMap, List.flatMap_map,
    noteIdsOf_flatMap]
  intro x hx
  rw [List.mem_flatMap] at hx
  obtain ⟨f, hfroot, hfx⟩ := hx
  exact noteIdsOf_items_origin nb fuel f 0 (mem_rootFolders nb f hfroot).1 x hfx

theorem folderIdsOf_forest_origin (nb : NotebookData) (hRI : RootsInv nb)
    (fuel : Nat) :
    ∀ x ∈ folderIdsOf (add_forest_to_items (nb.build_folder_tree_fuel fuel)),
      (∃ r ∈ nb.folders, r.id = x ∧ r.parent_id = none) ∨
        ∃ h ∈ nb.folders, h.expanded = true ∧
          ∃ c ∈ nb.folders, c.id = x ∧ c.parent_id = some h.id := by
  rw [build_folder_tree_fuel_eq, add_forest_eq_flatMap, List.flatMap_map,
    folderIdsOf_flatMap]
  intro x hx
  rw [List.mem_flatMap] at hx
  obtain ⟨f, hfroot, hfx⟩ := hx
  rcases folderIdsOf_items_origin nb fuel f 0 (mem_rootFolders nb f hfroot).1
      x hfx with rfl | hdeep
  · exact .inl ⟨f, (mem_rootFolders nb f hfroot).1, rfl,
      rootFolders_parent_none nb hRI f hfroot⟩
  · exact .inr hdeep

/-- C4: for every notebook satisfying the spec's data-model invariants
(unique folder ids, unique note ids, duplicate-free root-id sequence whose
folders are parentless, acyclic parent graph), building the folder tree and
flattening it emits no folder id and no note id more than once, emits a
collapsed folder's owned notes and child folders nowhere, always emits the
root-level unfiled notes, and places them before the folder forest. -/
theorem refresh_tree_view_spec (nb : NotebookData)
    (hF : (nb.folders.map Folder.id).Nodup)
    (hN : (nb.notes.map Note.id).Nodup)
    (hR : nb.root_folder_ids.Nodup) (hRI : RootsInv nb)
    (hacyc : Acyclic nb) :
    (folderIdsOf (refresh_tree_view nb)).Nodup ∧
    (noteIdsOf (refresh_tree_view nb)).Nodup ∧
    (∀ f ∈ nb.folders, f.expanded = false →
      (∀ n ∈ nb.notes, n.folder_id = some f.id →
        n.id ∉ noteIdsOf (refresh_tree_view nb)) ∧
      (∀ g ∈ nb.folders, g.parent_id = some f.id →
        g.id ∉ folderIdsOf (refresh_tree_view nb))) ∧
    (∀ n ∈ nb.notes, n.folder_id = none →
      n.id ∈ noteIdsOf (refresh_tree_view nb)) ∧
    refresh_tree_view nb =
      (nb.get_folder_notes none).map (fun n =>
        { id := n.id, name := n.title, item_type := .Note, depth := 0,
          expanded := false }) ++
        add_forest_to_items nb.build_folder_tree := by
  have hfolder_eq : folderIdsOf (refresh_tree_view nb) =
      folderIdsOf
        (add_forest_to_items (nb.build_folder_tree_fuel nb.folders.length)) := by
    rw [refresh_tree_view, folderIdsOf_append, folderIdsOf_noteItems]
    rfl
  have hnote_eq : noteIdsOf (refresh_tree_view nb) =
      (nb.get_folder_notes none).map Note.id ++
        noteIdsOf
          (add_forest_to_items (nb.build_folder_tree_fuel nb.folders.length)) := by
    rw [refresh_tree_view, noteIdsOf_append, noteIdsOf_noteItems]
    rfl
  refine ⟨?_, ?_, ?_, ?_, rfl⟩
  · rw [hfolder_eq]
    exact (allBuiltFolderIds_nodup nb hF hacyc hR hRI _).sublist
      (folderIdsOf_forest_sublist nb _)
  · rw [hnote_eq]
    refine List.Nodup.append (get_folder_notes_ids_nodup nb hN none)
      ((allBuiltNoteIds_nodup nb hF hacyc hR hRI hN _).sublist
        (noteIdsOf_forest_sublist nb _)) ?_
    intro x hx1 hx2
    have hx2' : x ∈ allBuiltNoteIds nb nb.folders.length :=
      (noteIdsOf_forest_sublist nb _).subset hx2
    obtain ⟨g, hg⟩ := mem_allBuiltNoteIds_owner nb _ x hx2'
    exact get_folder_notes_disjoint nb hN none (some g) (by simp) hx1 hg
  · intro f hf hfexp
    constructor
    · intro n hn hnf hmem
      rw [hnote_eq] at hmem
      rcases List.mem_append.mp hmem with hx1 | hx2
      · obtain ⟨n', hn', hid⟩ := List.mem_map.mp hx1
        obtain ⟨hn'm, hn'f⟩ := List.mem_filter.mp hn'
        have hnn : n' = n := List.inj_on_of_nodup_map hN hn'm hn hid
        subst hnn
        have : n'.folder_id = none := by simpa using hn'f
        rw [hnf] at this
        exact Option.noConfusion this
      · obtain ⟨h, hhm, hhexp, hx⟩ := noteIdsOf_forest_origin nb _ n.id hx2
        obtain ⟨m, hm, hmid⟩ := List.mem_map.mp hx
        obtain ⟨hmm, hmf⟩ := List.mem_filter.mp hm
        have hmn : m = n := List.inj_on_of_nodup_map hN hmm hn hmid
        subst hmn
        have hmf' : m.folder_id = some h.id := by simpa using hmf
        rw [hnf] at hmf'
        have hhid : h.id = f.id := by
          have := Option.some_inj.mp hmf'
          omega
        have hhf : h = f := List.inj_on_of_nodup_map hF hhm hf hhid
        rw [hhf] at hhexp
        rw [hfexp] at hhexp
        exact Bool.noConfusion hhexp
    · intro g hg hgp hmem
      rw [hfolder_eq] at hmem
      rcases folderIdsOf_forest_origin nb hRI _ g.id hmem with
        ⟨r, hrm, hrid, hrp⟩ | ⟨h, hhm, hhexp, c, hcm, hcid, hcp⟩
      · have hrg : r = g := List.inj_on_of_nodup_map hF hrm hg hrid
        subst hrg
        rw [hgp] at hrp
        exact Option.noConfusion hrp
      · have hcg : c = g := List.inj_on_of_nodup_map hF hcm hg hcid
        subst hcg
        rw [hgp] at hcp
        have hhid : h.id = f.id := (Option.some_inj.mp hcp).symm
        have hhf : h = f := List.inj_on_of_nodup_map hF hhm hf hhid
        rw [hhf] at hhexp
        rw [hfexp] at hhexp
        exact Bool.noConfusion hhexp
  · intro n hn hnf
    rw [hnote_eq]
    refine List.mem_append_left _ ?_
    exact List.mem_map.mpr ⟨n, List.mem_filter.mpr ⟨hn, by simp [hnf]⟩, rfl⟩

/-- A notebook with a collapsed folder: folder 1 (collapsed, root) owns note
11 and child folder 2; folder 3 (root) owns note 10; note 12 is unfiled. -/
def collapsedNotebook : NotebookData :=
  { folders :=
      [ { id := 1, name := ['A'], parent_id := none, created_at := 0,
          expanded := false },
        { id := 2, name := ['B'], parent_id := some 1, created_at := 0,
          expanded := true },
        { id := 3, name := ['C'], parent_id := none, created_at := 0,
          expanded := true } ],
    notes :=
      [ { id := 10, title := ['n'], content := [], folder_id := some 3,
          created_at := 0, modified_at := 0, tags := [], file_path := none },
        { id := 11, title := ['m'], content := [], folder_id := some 1,
          created_at := 0, modified_at := 0, tags := [], file_path := none },
        { id := 12, title := ['r'], content := [], folder_id := none,
          created_at := 0, modified_at := 0, tags := [], file_path := none } ],
    root_folder_ids := [1, 3] }

theorem collapsedNotebook_acyclic : Acyclic collapsedNotebook := by
  refine acyclic_of_rank _ (fun id => if id = 2 then 1 else 0) ?_
  rintro x y ⟨g, hg, rfl, hgp⟩
  simp only [collapsedNotebook, List.mem_cons, List.not_mem_nil, or_false]
    at hg
  rcases hg with rfl | rfl | rfl
  · exact absurd hgp (by simp)
  · obtain rfl : (1 : Nat) = y := by simpa using hgp
    decide
  · exact absurd hgp (by simp)

theorem collapsedNotebook_rootsInv : RootsInv collapsedNotebook := by
  intro rid hrid f hf hfid
  simp only [collapsedNotebook, List.mem_cons, List.not_mem_nil, or_false]
    at hrid hf
  rcases hf with rfl | rfl | rfl <;> rcases hrid with rfl | rfl <;> simp_all

/-- C4 witness: on the collapsed-folder notebook the flattened view has no
duplicate folder or note ids, omits the collapsed folder 1's note 11 and
child folder 2, and still shows the unfiled note 12. -/
theorem refresh_tree_view_spec_witness :
    (folderIdsOf (refresh_tree_view collapsedNotebook)).Nodup ∧
    (noteIdsOf (refresh_tree_view collapsedNotebook)).Nodup ∧
    11 ∉ noteIdsOf (refresh_tree_view collapsedNotebook) ∧
    2 ∉ folderIdsOf (refresh_tree_view collapsedNotebook) ∧
    12 ∈ noteIdsOf (refresh_tree_view collapsedNotebook) := by
  have h := refresh_tree_view_spec collapsedNotebook (by decide) (by decide)
    (by decide) collapsedNotebook_rootsInv collapsedNotebook_acyclic
  have hgate := h.2.2.1
    { id := 1, name := ['A'], parent_id := none, created_at := 0,
      expanded := false } (by decide) rfl
  refine ⟨h.1, h.2.1, ?_, ?_, ?_⟩
  · exact hgate.1
      { id := 11, title := ['m'], content := [], folder_id := some 1,
        created_at := 0, modified_at := 0, tags := [], file_path := none }
      (by decide) rfl
  · exact hgate.2
      { id := 2, name := ['B'], parent_id := some 1, created_at := 0,
        expanded := true } (by decide) rfl
  · exact h.2.2.2.1
      { id := 12, title := ['r'], content := [], folder_id := none,
        created_at := 0, modified_at := 0, tags := [], file_path := none }
      (by decide) rfl

end Scribble
